import Mathlib

/-!
Verification of dulwich/patch.py (git am-style patches).

The source operates on Python byte strings; we model byte strings as
`List Char` (all data in scope is ASCII, one `Char` per byte).  Pure
functions of the source become Lean functions; Python exceptions become
`Except PyErr`.  The two standard-library collaborators that the source
drives — `difflib.SequenceMatcher` and `email.parser` — are embedded from
their documented algorithms (see the doc comments on the individual
definitions), since the claims depend on their behaviour.
-/

/-- Byte strings, one `Char` per byte. -/
abbrev Bytes := List Char

/-- Build a byte string from a string literal. -/
def bs (s : String) : Bytes := s.data

/-- Python exceptions that the code under study can raise.  `formatError`
is `dulwich.errors.FormatError`; it is included so that claims about it can
be stated (patch.py itself never raises it). -/
inductive PyErr where
  | attributeError
  | valueError
  | typeError
  | keyError
  | indexError
  | unicodeEncodeError
  | formatError
  deriving DecidableEq

/-- The mutable commit record (author/committer/message byte strings), the
part of dulwich.objects.Commit that patch.py reads and writes. -/
structure CommitR where
  author : Bytes
  committer : Bytes
  message : Bytes
  deriving DecidableEq

/-- Iterating a `BytesIO` yields the chunks ending after each newline; the
final chunk may lack the terminator.  (Python `for l in body`.) -/
def iterLines : Bytes → List Bytes
  | [] => []
  | c :: rest =>
    if c = '\n' then [c] :: iterLines rest
    else
      match iterLines rest with
      | [] => [[c]]
      | l :: ls => (c :: l) :: ls

/-- Python `bytes.splitlines(True)`: split after each line terminator
(newline, carriage return, or the pair), keeping the terminators. -/
def splitlinesKeep : Bytes → List Bytes
  | [] => []
  | '\n' :: rest => ['\n'] :: splitlinesKeep rest
  | '\r' :: '\n' :: rest => ['\r', '\n'] :: splitlinesKeep rest
  | '\r' :: rest => ['\r'] :: splitlinesKeep rest
  | c :: rest =>
    match splitlinesKeep rest with
    | [] => [[c]]
    | l :: ls => (c :: l) :: ls

/-- Python `bytes.splitlines()`: as `splitlinesKeep` but the terminators are
dropped. -/
def splitlinesPy : Bytes → List Bytes
  | [] => []
  | '\n' :: rest => [] :: splitlinesPy rest
  | '\r' :: '\n' :: rest => [] :: splitlinesPy rest
  | '\r' :: rest => [] :: splitlinesPy rest
  | c :: rest =>
    match splitlinesPy rest with
    | [] => [[c]]
    | l :: ls => (c :: l) :: ls

/-- Python whitespace bytes, as stripped by `bytes.rstrip()`. -/
def isPyWhitespace (c : Char) : Bool :=
  c == ' ' || c == '\t' || c == '\n' || c == '\r' || c == '\x0B' || c == '\x0C'

/-- Python `bytes.rstrip()` (default whitespace). -/
def rstrip (sb : Bytes) : Bytes := (sb.reverse.dropWhile isPyWhitespace).reverse

/-- Python `bytes.rstrip(b'\n')`. -/
def rstripNl (sb : Bytes) : Bytes := (sb.reverse.dropWhile (fun c => c == '\n')).reverse

/-- Python `str.rstrip('\r\n')`, used when parsing a header value. -/
def rstripCRLF (sb : Bytes) : Bytes :=
  (sb.reverse.dropWhile (fun c => c == '\n' || c == '\r')).reverse

/-- Python `str.lstrip(' \t')`, used when parsing a header value. -/
def lstripST (sb : Bytes) : Bytes := sb.dropWhile (fun c => c == ' ' || c == '\t')

/-- Decimal digits of a natural number, fuel-driven; `fuel = n + 1` always
suffices (each step divides by ten). -/
def natToBytesGo : Nat → Nat → Bytes
  | 0, _ => []
  | fuel + 1, n =>
    if n < 10 then [Nat.digitChar n]
    else natToBytesGo fuel (n / 10) ++ [Nat.digitChar (n % 10)]

/-- Python `b"%d" % n`. -/
def natToBytes (n : Nat) : Bytes := natToBytesGo (n + 1) n

/-- Octal digits of a natural number, fuel-driven. -/
def natToOctalGo : Nat → Nat → Bytes
  | 0, _ => []
  | fuel + 1, n =>
    if n < 8 then [Nat.digitChar n]
    else natToOctalGo fuel (n / 8) ++ [Nat.digitChar (n % 8)]

/-- Python `b"%o" % n`. -/
def octalBytes (n : Nat) : Bytes := natToOctalGo (n + 1) n

/-- Python `str.find(pat, start)`: least index at or after `start` where
`pat` occurs as a contiguous substring, if any. -/
def findSubFrom (sb pat : Bytes) (start : Nat) : Option Nat :=
  (List.range (sb.length + 1)).find?
    (fun i => decide (start ≤ i) && pat.isPrefixOf (sb.drop i))

/-- Python `str.find(pat)`. -/
def findSub (sb pat : Bytes) : Option Nat := findSubFrom sb pat 0

/-- ASCII lower-casing of one character. -/
def toLowerCh (c : Char) : Char :=
  if 'A' ≤ c ∧ c ≤ 'Z' then Char.ofNat (c.toNat + 32) else c

/-- ASCII lower-casing of a byte string (header names compare
case-insensitively). -/
def lowerBytes (sb : Bytes) : Bytes := sb.map toLowerCh

/-- Python `str.encode('ascii')`: fails with UnicodeEncodeError on a
non-ASCII character. -/
def encodeAscii (sb : Bytes) : Except PyErr Bytes :=
  if sb.all (fun c => decide (c.toNat < 128)) then .ok sb else .error .unicodeEncodeError

/-!
The difflib.SequenceMatcher collaborator (CPython), specialised to
`SequenceMatcher(None, a, b)` as patch.py calls it: `isjunk` is `None`, so
the junk set is empty and the two junk-extension loops of
`find_longest_match` are no-ops (omitted below); `autojunk` is on, so
elements occurring more than `len(b)//100 + 1` times are purged from the
`b2j` index when `len(b) >= 200`.
-/

/-- Positions of `x` in `b`, ascending (the raw `b2j` index). -/
def posIn (b : List Bytes) (x : Bytes) : List Nat :=
  (List.range b.length).filter (fun j => b.get? j == some x)

/-- The `b2j` index after the autojunk purge of popular elements
(`SequenceMatcher.__chain_b`). -/
def b2j (b : List Bytes) (x : Bytes) : List Nat :=
  let idxs := posIn b x
  if 200 ≤ b.length ∧ b.length / 100 + 1 < idxs.length then [] else idxs

/-- A matching block: `a[i:i+size] == b[j:j+size]`. -/
structure FMatch where
  i : Nat
  j : Nat
  size : Nat
  deriving DecidableEq

/-- The `j` positions examined at row `i` of the `find_longest_match`
dynamic program: `b2j[a[i]]` restricted to `[blo, bhi)` (the `continue` /
`break` filtering over the ascending index list). -/
def jsOf (a b : List Bytes) (blo bhi i : Nat) : List Nat :=
  match a.get? i with
  | some x => (b2j b x).filter (fun j => decide (blo ≤ j) && decide (j < bhi))
  | none => []

/-- One cell of the dynamic program: `k = j2len.get(j-1, 0) + 1` (Python
queries `j2len[-1]` for `j = 0`, which is absent, hence 0). -/
def dpCell (j2len : Nat → Nat) (j : Nat) : Nat :=
  (match j with
   | 0 => 0
   | jj + 1 => j2len jj) + 1

/-- Process the cells of row `i`: build `newj2len` and track the first
maximal match (`if k > bestsize`). -/
def dpRowGo (i : Nat) (old : Nat → Nat) : List Nat → (Nat → Nat) → FMatch → (Nat → Nat) × FMatch
  | [], cur, best => (cur, best)
  | j :: js, cur, best =>
    let k := dpCell old j
    dpRowGo i old js (fun x => if x = j then k else cur x)
      (if best.size < k then ⟨i + 1 - k, j + 1 - k, k⟩ else best)

/-- The outer loop of the dynamic program, over the rows `alo..ahi-1`. -/
def dpRows (a b : List Bytes) (blo bhi : Nat) : List Nat → (Nat → Nat) → FMatch → FMatch
  | [], _, best => best
  | i :: is, j2len, best =>
    let p := dpRowGo i j2len (jsOf a b blo bhi i) (fun _ => 0) best
    dpRows a b blo bhi is p.1 p.2

/-- Backward extension: while `besti > alo and bestj > blo and
a[besti-1] == b[bestj-1]`, grow the block to the left. -/
def extBack (a b : List Bytes) (alo blo : Nat) : Nat → Nat → Nat → FMatch
  | 0, bj, size => ⟨0, bj, size⟩
  | bi + 1, bj, size =>
    if alo < bi + 1 ∧ blo < bj ∧ (a.get? bi).isSome ∧ a.get? bi = b.get? (bj - 1) then
      extBack a b alo blo bi (bj - 1) (size + 1)
    else ⟨bi + 1, bj, size⟩

/-- Forward extension: while `besti+bestsize < ahi and bestj+bestsize < bhi
and a[besti+bestsize] == b[bestj+bestsize]`, grow the block to the right.
Fuel-driven; the initial fuel `ahi` dominates the number of steps. -/
def extFwdGo (a b : List Bytes) (ahi bhi bi bj : Nat) : Nat → Nat → Nat
  | 0, size => size
  | fuel + 1, size =>
    if bi + size < ahi ∧ bj + size < bhi ∧ (a.get? (bi + size)).isSome ∧
        a.get? (bi + size) = b.get? (bj + size) then
      extFwdGo a b ahi bhi bi bj fuel (size + 1)
    else size

/-- `SequenceMatcher.find_longest_match(alo, ahi, blo, bhi)`. -/
def find_longest_match (a b : List Bytes) (alo ahi blo bhi : Nat) : FMatch :=
  let best := dpRows a b blo bhi (List.range' alo (ahi - alo)) (fun _ => 0) ⟨alo, blo, 0⟩
  let m := extBack a b alo blo best.i best.j best.size
  let size := extFwdGo a b ahi bhi m.i m.j ahi m.size
  ⟨m.i, m.j, size⟩

/-- The recursive block collection of `get_matching_blocks` (the Python
queue plus final sort, realised by left-to-right recursion, which emits the
blocks already sorted).  Fuel-driven; `a.length + 1` suffices at the top
because each recursive range is strictly smaller. -/
def matchingBlocksGo (a b : List Bytes) : Nat → Nat → Nat → Nat → Nat → List (Nat × Nat × Nat)
  | 0, _, _, _, _ => []
  | fuel + 1, alo, ahi, blo, bhi =>
    let m := find_longest_match a b alo ahi blo bhi
    if m.size = 0 then []
    else
      (if alo < m.i ∧ blo < m.j then matchingBlocksGo a b fuel alo m.i blo m.j else []) ++
      (m.i, m.j, m.size) ::
      (if m.i + m.size < ahi ∧ m.j + m.size < bhi then
        matchingBlocksGo a b fuel (m.i + m.size) ahi (m.j + m.size) bhi
      else [])

/-- The adjacency merge at the end of `get_matching_blocks` (initial state
`i1 = j1 = k1 = 0`). -/
def mergeBlocks : Nat → Nat → Nat → List (Nat × Nat × Nat) → List (Nat × Nat × Nat)
  | i1, j1, k1, [] => if k1 = 0 then [] else [(i1, j1, k1)]
  | i1, j1, k1, (i2, j2, k2) :: rest =>
    if i1 + k1 = i2 ∧ j1 + k1 = j2 then mergeBlocks i1 j1 (k1 + k2) rest
    else (if k1 = 0 then [] else [(i1, j1, k1)]) ++ mergeBlocks i2 j2 k2 rest

/-- `SequenceMatcher.get_matching_blocks`, including the `(la, lb, 0)`
sentinel. -/
def get_matching_blocks (a b : List Bytes) : List (Nat × Nat × Nat) :=
  mergeBlocks 0 0 0 (matchingBlocksGo a b (a.length + 1) 0 a.length 0 b.length) ++
    [(a.length, b.length, 0)]

/-- Edit-script opcode tags. -/
inductive Tag where
  | equal
  | replace
  | delete
  | insert
  deriving DecidableEq

/-- An edit-script opcode over `a[i1:i2]` and `b[j1:j2]`. -/
structure Opcode where
  tag : Tag
  i1 : Nat
  i2 : Nat
  j1 : Nat
  j2 : Nat
  deriving DecidableEq

/-- `SequenceMatcher.get_opcodes`, from the matching blocks. -/
def opcodesGo : Nat → Nat → List (Nat × Nat × Nat) → List Opcode
  | _, _, [] => []
  | i, j, (ai, bj, size) :: rest =>
    (if i < ai ∧ j < bj then [⟨.replace, i, ai, j, bj⟩]
     else if i < ai then [⟨.delete, i, ai, j, bj⟩]
     else if j < bj then [⟨.insert, i, ai, j, bj⟩]
     else []) ++
    (if size = 0 then [] else [⟨.equal, ai, ai + size, bj, bj + size⟩]) ++
    opcodesGo (ai + size) (bj + size) rest

def get_opcodes (a b : List Bytes) : List Opcode := opcodesGo 0 0 (get_matching_blocks a b)

/-- Trim a leading equal opcode to at most `n` lines of context
(`codes[0] = tag, max(i1, i2-n), i2, max(j1, j2-n), j2`). -/
def fixupHead (n : Nat) : List Opcode → List Opcode
  | [] => []
  | c :: rest =>
    if c.tag = .equal then ⟨.equal, max c.i1 (c.i2 - n), c.i2, max c.j1 (c.j2 - n), c.j2⟩ :: rest
    else c :: rest

/-- Trim a trailing equal opcode to at most `n` lines of context. -/
def fixupLast (n : Nat) : List Opcode → List Opcode
  | [] => []
  | [c] =>
    if c.tag = .equal then [⟨.equal, c.i1, min c.i2 (c.i1 + n), c.j1, min c.j2 (c.j1 + n)⟩]
    else [c]
  | c :: rest => c :: fixupLast n rest

/-- The final-group flush of `get_grouped_opcodes`: a trailing group is
emitted unless it is empty or a single equal opcode. -/
def groupFlush : List Opcode → List (List Opcode)
  | [] => []
  | [c] => if c.tag = .equal then [] else [[c]]
  | g => [g]

/-- The grouping loop of `get_grouped_opcodes`: close the current group at
each equal opcode wider than `2n`, trimming `n` lines of context on either
side; suppress a final group that is a single equal opcode. -/
def groupSplitGo (n : Nat) : List Opcode → List Opcode → List (List Opcode)
  | group, [] => groupFlush group
  | group, c :: rest =>
    if c.tag = .equal ∧ n + n < c.i2 - c.i1 then
      (group ++ [⟨.equal, c.i1, min c.i2 (c.i1 + n), c.j1, min c.j2 (c.j1 + n)⟩]) ::
        groupSplitGo n [⟨.equal, max c.i1 (c.i2 - n), c.i2, max c.j1 (c.j2 - n), c.j2⟩] rest
    else groupSplitGo n (group ++ [c]) rest

/-- `SequenceMatcher.get_grouped_opcodes(n)` (including the fabricated
`("equal", 0, 1, 0, 1)` opcode when the opcode list is empty). -/
def get_grouped_opcodes (a b : List Bytes) (n : Nat) : List (List Opcode) :=
  let codes0 := get_opcodes a b
  let codes1 := if codes0 = [] then [⟨.equal, 0, 1, 0, 1⟩] else codes0
  groupSplitGo n [] (fixupLast n (fixupHead n codes1))

/-!
patch.py itself: the unified-diff formatter, the object-diff writer, the
patch-mail writer and the patch-mail parser.
-/

/-- The marker appended by unified_diff when a deleted/inserted line lacks
a trailing newline (`line += b'\\n\\\\ No newline at end of file\\n'`). -/
def noNlMarker : Bytes := bs "\n\\ No newline at end of file\n"

/-- The newline fixup of patch.py lines 100-101 and 105-106: a line whose
last byte is not a newline gets a newline plus the marker line appended. -/
def fixNl (line : Bytes) : Bytes :=
  if line.getLast? = some '\n' then line else line ++ noNlMarker

/-- Python slice `l[i1:i2]`. -/
def listSlice (l : List Bytes) (i1 i2 : Nat) : List Bytes := (l.drop i1).take (i2 - i1)

/-- The per-opcode line emission of unified_diff (patch.py lines 93-107):
equal lines are emitted verbatim behind a space; deleted/inserted lines are
newline-fixed behind `-` / `+`; a replace emits its deletions then its
insertions. -/
def formatOpcode (a b : List Bytes) (c : Opcode) : List Bytes :=
  match c.tag with
  | .equal => (listSlice a c.i1 c.i2).map (fun l => ' ' :: l)
  | .delete => (listSlice a c.i1 c.i2).map (fun l => '-' :: fixNl l)
  | .insert => (listSlice b c.j1 c.j2).map (fun l => '+' :: fixNl l)
  | .replace =>
    (listSlice a c.i1 c.i2).map (fun l => '-' :: fixNl l) ++
      (listSlice b c.j1 c.j2).map (fun l => '+' :: fixNl l)

/-- The group bounds used for the hunk header: `group[0][1], group[-1][2],
group[0][3], group[-1][4]`. -/
def groupBounds (g : List Opcode) : Nat × Nat × Nat × Nat :=
  match g.head?, g.getLast? with
  | some c0, some c1 => (c0.i1, c1.i2, c0.j1, c1.j2)
  | _, _ => (0, 0, 0, 0)

/-- The hunk header `"@@ -%d,%d +%d,%d @@\n" % (i1+1, i2-i1, j1+1, j2-j1)`. -/
def hunkHeader (i1 i2 j1 j2 : Nat) : Bytes :=
  bs "@@ -" ++ natToBytes (i1 + 1) ++ bs "," ++ natToBytes (i2 - i1) ++
    bs " +" ++ natToBytes (j1 + 1) ++ bs "," ++ natToBytes (j2 - j1) ++ bs " @@\n"

/-- The lines emitted for one change group: hunk header then opcode lines. -/
def formatGroup (a b : List Bytes) (g : List Opcode) : List Bytes :=
  hunkHeader (groupBounds g).1 (groupBounds g).2.1 (groupBounds g).2.2.1 (groupBounds g).2.2.2 ::
    (g.map (formatOpcode a b)).flatten

/-- patch.py lines 80-107: `unified_diff(a, b, fromfile, tofile, n)` as the
list of yielded byte strings.  The `---`/`+++` header pair is emitted once,
before the first group, only if some group exists. -/
def unified_diff (a b : List Bytes) (fromfile tofile : Bytes) (n : Nat) : List Bytes :=
  match get_grouped_opcodes a b n with
  | [] => []
  | g :: gs =>
    (bs "--- " ++ fromfile ++ bs "\n") :: (bs "+++ " ++ tofile ++ bs "\n") ::
      ((g :: gs).map (formatGroup a b)).flatten

/-- patch.py line 35. -/
def FIRST_FEW_BYTES : Nat := 8000

/-- patch.py lines 110-115: null byte within the first 8000 bytes. -/
def is_binary (content : Bytes) : Bool :=
  (content.take FIRST_FEW_BYTES).contains (Char.ofNat 0)

/-- dulwich.objects: `S_IFGITLINK = 0o160000`. -/
def S_IFGITLINK : Nat := 0o160000

/-- dulwich.objects: `S_ISGITLINK(m) = (stat.S_IFMT(m) == S_IFGITLINK)`. -/
def S_ISGITLINK (m : Nat) : Bool := m &&& 0o170000 == S_IFGITLINK

/-- patch.py lines 132-136: the 7-character short id, all zeros when the
id is absent. -/
def shortid : Option Bytes → Bytes
  | none => bs "0000000"
  | some h => h.take 7

/-- patch.py lines 138-144: content of one side; absent id yields empty
content, a gitlink mode yields the submodule placeholder, otherwise the
store is consulted (a missing store entry raises, a gitlink test on a null
mode raises TypeError). -/
def contentOf (store : Bytes → Option Bytes) (mode : Option Nat) (hexsha : Option Bytes) :
    Except PyErr Bytes :=
  match hexsha with
  | none => .ok []
  | some h =>
    match mode with
    | none => .error .typeError
    | some m =>
      if S_ISGITLINK m then .ok (bs "Submodule commit " ++ h ++ bs "\n")
      else
        match store h with
        | some data => .ok data
        | none => .error .keyError

/-- patch.py lines 146-150: split content into lines, keeping terminators. -/
def linesOf (content : Bytes) : List Bytes :=
  if content = [] then [] else splitlinesKeep content

/-- patch.py lines 161-167: the mode-change lines, following the source's
nested conditionals. -/
def modeChangeLines (old_mode new_mode : Option Nat) : Bytes :=
  if old_mode = new_mode then []
  else
    match new_mode, old_mode with
    | some nm, some om =>
      bs "old mode " ++ octalBytes om ++ bs "\n" ++ bs "new mode " ++ octalBytes nm ++ bs "\n"
    | some nm, none => bs "new mode " ++ octalBytes nm ++ bs "\n"
    | none, some om => bs "deleted mode " ++ octalBytes om ++ bs "\n"
    | none, none => []

/-- patch.py lines 168-171: the index line. -/
def indexLine (old_id new_id : Option Bytes) (new_mode : Option Nat) : Bytes :=
  bs "index " ++ shortid old_id ++ bs ".." ++ shortid new_id ++
    (match new_mode with
     | some nm => bs " " ++ octalBytes nm
     | none => []) ++ bs "\n"

/-- patch.py lines 152-159: path display. -/
def displayPath (prefixTag : Bytes) : Option Bytes → Bytes
  | none => bs "/dev/null"
  | some p => prefixTag ++ p

/-- patch.py lines 118-178: `write_object_diff`; the bytes written to `f`
on success (content-store lookups may raise, aborting the write). -/
def write_object_diff (store : Bytes → Option Bytes)
    (old_file new_file : Option Bytes × Option Nat × Option Bytes) (diff_binary : Bool) :
    Except PyErr Bytes := do
  let (old_path0, old_mode, old_id) := old_file
  let (new_path0, new_mode, new_id) := new_file
  let old_path := displayPath (bs "a/") old_path0
  let new_path := displayPath (bs "b/") new_path0
  let old_content ← contentOf store old_mode old_id
  let new_content ← contentOf store new_mode new_id
  let body :=
    if !diff_binary && (is_binary old_content || is_binary new_content) then
      bs "Binary files " ++ old_path ++ bs " and " ++ new_path ++ bs " differ\n"
    else
      (unified_diff (linesOf old_content) (linesOf new_content) old_path new_path 3).flatten
  .ok (bs "diff --git " ++ old_path ++ bs " " ++ new_path ++ bs "\n" ++
    modeChangeLines old_mode new_mode ++ indexLine old_id new_id new_mode ++ body)

/-- patch.py lines 71-77: `get_summary(commit)`; the first line of the
message with spaces replaced by hyphens.  Indexing `splitlines()[0]` of an
empty message raises IndexError. -/
def get_summary (c : CommitR) : Except PyErr Bytes :=
  match splitlinesPy c.message with
  | [] => .error .indexError
  | l :: _ => .ok (l.map (fun ch => if ch = ' ' then '-' else ch))

/-- patch.py lines 38-68: `write_commit_patch` with the diffstat
collaborator unavailable (the `except` path, so no diffstat section) and an
explicit version label.  `commitId`, `ctime` and `date` stand for
`commit.id`, `time.ctime(commit.commit_time)` and `time.strftime(...)`. -/
def write_commit_patch (commitId : Bytes) (c : CommitR) (ctime date contents : Bytes)
    (num total : Nat) (version : Bytes) : Bytes :=
  bs "From " ++ commitId ++ bs " " ++ ctime ++ bs "\n" ++
  bs "From: " ++ c.author ++ bs "\n" ++
  bs "Date: " ++ date ++ bs "\n" ++
  bs "Subject: [PATCH " ++ natToBytes num ++ bs "/" ++ natToBytes total ++ bs "] " ++
    c.message ++ bs "\n" ++
  bs "\n" ++
  bs "---\n" ++
  contents ++
  bs "-- \n" ++
  version ++ bs "\n"

/-- A parsed RFC-822-style message: headers and raw payload. -/
structure EmailMsg where
  headers : List (Bytes × Bytes)
  payload : Bytes

/-- One header line `Name: value` (compat32 header_source_parse): name
before the first colon (stored lower-cased for case-insensitive lookup),
value with leading blanks and the trailing line break stripped. -/
def headerSourceParse (line : Bytes) : Option (Bytes × Bytes) :=
  match findSub line (bs ":") with
  | none => none
  | some i => some (lowerBytes (line.take i), rstripCRLF (lstripST (line.drop (i + 1))))

/-- Header scanning of the email.parser collaborator: a leading `From `
line is the mbox envelope and is skipped; a blank line ends the headers;
a line without a colon ends the headers and starts the body (the defect
path).  Folded (continuation) headers do not occur in the messages in
scope and are not modelled. -/
def parseEmailGo : Bool → List Bytes → List (Bytes × Bytes) × List Bytes
  | _, [] => ([], [])
  | isFirst, l :: rest =>
    if l = bs "\n" then ([], rest)
    else if isFirst && (bs "From ").isPrefixOf l then parseEmailGo false rest
    else
      match headerSourceParse l with
      | some h =>
        let p := parseEmailGo false rest
        (h :: p.1, p.2)
      | none => ([], l :: rest)

/-- The email.parser collaborator, as used by git_am_patch_split: parse the
headers, keep the remainder as the raw payload (`get_payload(decode=True)`
with no content-transfer-encoding returns the raw bytes). -/
def parseEmail (msg : Bytes) : EmailMsg :=
  let p := parseEmailGo true (iterLines msg)
  ⟨p.1, p.2.flatten⟩

/-- `msg[name]`: the first header whose name matches case-insensitively. -/
def getHeader (m : EmailMsg) (name : Bytes) : Option Bytes :=
  (m.headers.find? (fun h => h.1 == lowerBytes name)).map (fun h => h.2)

/-- patch.py lines 260-267: the subject transformation; `index` on a
subject with a `[PATCH` marker but no following `] ` raises ValueError
(the second `index` call is outside the try block). -/
def subjectOf (subject : Bytes) : Except PyErr Bytes :=
  match findSub subject (bs "[PATCH") with
  | none => .ok subject
  | some k =>
    match findSubFrom subject (bs "] ") k with
    | none => .error .valueError
    | some close => .ok (subject.drop (close + 2))

/-- patch.py lines 272-282: the first body loop.  Consumes lines up to an
exclusive `---\n`; the first line, when it starts with `From: `, overrides
the author, otherwise it is appended behind a separating blank line; later
lines are appended as they are.  Returns the author, the accumulated
message and the remaining lines. -/
def splitBody1 : List Bytes → Bytes → Bytes → Bool → Bytes × Bytes × List Bytes
  | [], author, msg, _ => (author, msg, [])
  | l :: rest, author, msg, first =>
    if l = bs "---\n" then (author, msg, rest)
    else if first then
      if (bs "From: ").isPrefixOf l then splitBody1 rest (rstrip (l.drop 6)) msg false
      else splitBody1 rest author (msg ++ bs "\n" ++ l) false
    else splitBody1 rest author (msg ++ l) false

/-- patch.py lines 283-287: the diff loop, accumulating lines up to an
exclusive `-- \n`. -/
def splitDiff : List Bytes → Bytes → Bytes × List Bytes
  | [], acc => (acc, [])
  | l :: rest, acc => if l = bs "-- \n" then (acc, rest) else splitDiff rest (acc ++ l)

/-- patch.py lines 245-292: `git_am_patch_split(f)`.  A missing `From` or
`Subject` header raises AttributeError (`None.encode` / `None.index`); the
result is the commit record, the diff bytes and the optional version. -/
def git_am_patch_split (msgBytes : Bytes) : Except PyErr (CommitR × Bytes × Option Bytes) := do
  let msg := parseEmail msgBytes
  let fromRaw ←
    match getHeader msg (bs "from") with
    | none => Except.error PyErr.attributeError
    | some v => Except.ok v
  let author ← encodeAscii fromRaw
  let committer := author
  let subjRaw ←
    match getHeader msg (bs "subject") with
    | none => Except.error PyErr.attributeError
    | some v => Except.ok v
  let subj ← subjectOf subjRaw
  let subjEnc ← encodeAscii subj
  let message0 := subjEnc.filter (fun c => !(c == '\n')) ++ bs "\n"
  let bodyLines := iterLines msg.payload
  let r1 := splitBody1 bodyLines author message0 true
  let r2 := splitDiff r1.2.2 []
  let version : Option Bytes :=
    match r2.2 with
    | [] => none
    | l :: _ => some (rstripNl l)
  .ok (⟨r1.1, committer, r1.2.1⟩, r2.1, version)

/-!
The reference patch-apply.  It consumes the list of byte strings yielded by
`unified_diff` together with the old line sequence: the two file-header
elements are skipped positionally, each hunk header is parsed for its
old-side start and length, deleted lines are dropped, kept and inserted
lines are emitted (inserted lines have the newline fixup undone).
-/

/-- Undo `fixNl`: strip a trailing no-newline marker. -/
def unmangle (l : Bytes) : Bytes :=
  if noNlMarker.isSuffixOf l then l.take (l.length - noNlMarker.length) else l

/-- Read a decimal numeral. -/
def parseNatBytes (sb : Bytes) : Nat := sb.foldl (fun acc c => acc * 10 + (c.toNat - 48)) 0

/-- Parse a hunk header `@@ -s,c +.. @@`, returning the old-side start and
length. -/
def parseHunkHeader (l : Bytes) : Option (Nat × Nat) :=
  if (bs "@@ -").isPrefixOf l then
    let r := l.drop 4
    let ds1 := r.takeWhile Char.isDigit
    let r2 := r.drop ds1.length
    if ds1 ≠ [] ∧ r2.head? = some ',' then
      let ds2 := (r2.drop 1).takeWhile Char.isDigit
      if ds2 ≠ [] then some (parseNatBytes ds1, parseNatBytes ds2) else none
    else none
  else none

/-- Apply the hunk lines to `a`, starting after the two file-header
elements; `pos` is the index in `a` up to which output has been produced. -/
def applyHunks (a : List Bytes) : Nat → List Bytes → List Bytes → Option (List Bytes)
  | pos, [], acc => some (acc ++ a.drop pos)
  | pos, l :: rest, acc =>
    if l.head? = some '@' then
      match parseHunkHeader l with
      | none => none
      | some (s1, c1) => applyHunks a (s1 - 1 + c1) rest (acc ++ listSlice a pos (s1 - 1))
    else if l.head? = some ' ' then applyHunks a pos rest (acc ++ [l.tail])
    else if l.head? = some '+' then applyHunks a pos rest (acc ++ [unmangle l.tail])
    else if l.head? = some '-' then applyHunks a pos rest acc
    else none

/-- The reference patch-apply over the output of `unified_diff`. -/
def applyUnified (a : List Bytes) (out : List Bytes) : Option (List Bytes) :=
  match out with
  | [] => some a
  | [_] => none
  | _ :: _ :: rest => applyHunks a 0 rest []

/-- A proper line: an internal byte is never a newline (the final byte may
or may not be one).  This is the data model's notion of an element of a
line sequence. -/
def properLine (l : Bytes) : Prop := ∀ i, i + 1 < l.length → l.get? i ≠ some '\n'

/-! Generic lemmas about the byte-string helpers. -/

theorem iterLines_flatten : ∀ s : Bytes, (iterLines s).flatten = s
  | [] => rfl
  | c :: rest => by
    rw [iterLines]
    by_cases h : c = '\n'
    · simp [h, iterLines_flatten rest]
    · rw [if_neg h]
      rcases hrest : iterLines rest with _ | ⟨l, ls⟩
      · have h2 := iterLines_flatten rest
        rw [hrest] at h2
        simp at h2
        simp [← h2]
      · have h2 := iterLines_flatten rest
        rw [hrest] at h2
        simp at h2 ⊢
        exact h2

theorem iterLines_ne_nil {s : Bytes} (h : s ≠ []) : iterLines s ≠ [] := by
  match s with
  | [] => exact absurd rfl h
  | c :: rest =>
    rw [iterLines]
    by_cases hc : c = '\n'
    · simp [hc]
    · rw [if_neg hc]
      rcases iterLines rest with _ | ⟨l, ls⟩ <;> simp

theorem iterLines_cons_nl (rest : Bytes) : iterLines ('\n' :: rest) = ['\n'] :: iterLines rest := by
  rw [iterLines, if_pos rfl]

theorem iterLines_append : ∀ (s t : Bytes), s.getLast? = some '\n' →
    iterLines (s ++ t) = iterLines s ++ iterLines t
  | [], _, hs => by simp at hs
  | [c], t, hs => by
    simp at hs
    subst hs
    rw [List.singleton_append, iterLines_cons_nl, iterLines_cons_nl, iterLines]
    simp
  | c :: c2 :: rest, t, hs => by
    have hlast : (c2 :: rest).getLast? = some '\n' := by
      rw [← hs, List.getLast?_cons_cons]
    have ih := iterLines_append (c2 :: rest) t hlast
    by_cases hc : c = '\n'
    · subst hc
      rw [List.cons_append, iterLines_cons_nl, ih, iterLines_cons_nl]
      simp
    · rw [List.cons_append, iterLines, if_neg hc, ih]
      have hne : iterLines (c2 :: rest) ≠ [] := iterLines_ne_nil (by simp)
      rcases hi : iterLines (c2 :: rest) with _ | ⟨l, ls⟩
      · exact absurd hi hne
      · rw [iterLines, if_neg hc, hi]
        simp

/-!
Correctness of the SequenceMatcher embedding.  The goal is: every block
reported by `find_longest_match` is a genuine equal block within the given
bounds; the collected matching blocks tile both sequences monotonically;
the grouped opcodes cover both sequences with equal content in the
inter-group gaps.  These facts power the round-trip theorem.
-/

/-- Elementwise equality of `a[i:i+k]` and `b[j:j+k]`, all in range. -/
def sliceEq (a b : List Bytes) (i j k : Nat) : Prop :=
  ∀ t, t < k → a.get? (i + t) = b.get? (j + t) ∧ (a.get? (i + t)).isSome = true

theorem sliceEq_zero (a b : List Bytes) (i j : Nat) : sliceEq a b i j 0 := by
  intro t ht
  exact absurd ht (Nat.not_lt_zero t)

theorem sliceEq_one {a b : List Bytes} {i j : Nat} (h : a.get? i = b.get? j)
    (hs : (a.get? i).isSome = true) : sliceEq a b i j 1 := by
  intro t ht
  interval_cases t
  simp only [Nat.add_zero]
  exact ⟨h, hs⟩

theorem sliceEq_extend_right {a b : List Bytes} {i j k : Nat} (h : sliceEq a b i j k)
    (hlast : a.get? (i + k) = b.get? (j + k)) (hs : (a.get? (i + k)).isSome = true) :
    sliceEq a b i j (k + 1) := by
  intro t ht
  rcases Nat.lt_succ_iff_lt_or_eq.mp ht with h1 | h1
  · exact h t h1
  · subst h1
    exact ⟨hlast, hs⟩

theorem sliceEq_extend_left {a b : List Bytes} {i j k : Nat} (h : sliceEq a b (i + 1) (j + 1) k)
    (hfst : a.get? i = b.get? j) (hs : (a.get? i).isSome = true) :
    sliceEq a b i j (k + 1) := by
  intro t ht
  match t with
  | 0 =>
    simp only [Nat.add_zero]
    exact ⟨hfst, hs⟩
  | t + 1 =>
    have := h t (by omega)
    constructor
    · rw [show i + (t + 1) = i + 1 + t by omega, show j + (t + 1) = j + 1 + t by omega]
      exact this.1
    · rw [show i + (t + 1) = i + 1 + t by omega]
      exact this.2

theorem sliceEq_append {a b : List Bytes} {i j k k2 : Nat} (h1 : sliceEq a b i j k)
    (h2 : sliceEq a b (i + k) (j + k) k2) : sliceEq a b i j (k + k2) := by
  intro t ht
  by_cases hc : t < k
  · exact h1 t hc
  · have := h2 (t - k) (by omega)
    rw [show i + k + (t - k) = i + t by omega, show j + k + (t - k) = j + t by omega] at this
    exact this

theorem sliceEq_mono {a b : List Bytes} {i j k k2 : Nat} (h : sliceEq a b i j k)
    (hk : k2 ≤ k) : sliceEq a b i j k2 := fun t ht => h t (by omega)

theorem sliceEq_sub {a b : List Bytes} {i j k : Nat} (h : sliceEq a b i j k) (d k2 : Nat)
    (hd : d + k2 ≤ k) : sliceEq a b (i + d) (j + d) k2 := by
  intro t ht
  have := h (d + t) (by omega)
  rw [show i + (d + t) = i + d + t by omega, show j + (d + t) = j + d + t by omega] at this
  exact this

/-- Membership in the filtered `b2j` list. -/
theorem mem_jsOf {a b : List Bytes} {blo bhi i j : Nat} (h : j ∈ jsOf a b blo bhi i) :
    blo ≤ j ∧ j < bhi ∧ (a.get? i).isSome = true ∧ b.get? j = a.get? i := by
  rw [jsOf] at h
  rcases hx : a.get? i with _ | x
  · rw [hx] at h
    simp at h
  · rw [hx] at h
    simp only [List.mem_filter, Bool.and_eq_true, decide_eq_true_eq] at h
    rcases h with ⟨hmem, hblo, hbhi⟩
    refine ⟨hblo, hbhi, by simp [hx], ?_⟩
    rw [b2j] at hmem
    have hpos : j ∈ posIn b x := by
      by_cases hc : 200 ≤ b.length ∧ b.length / 100 + 1 < (posIn b x).length
      · rw [if_pos hc] at hmem
        simp at hmem
      · rwa [if_neg hc] at hmem
    rw [posIn, List.mem_filter] at hpos
    have hbj := hpos.2
    simp only [beq_iff_eq] at hbj
    rw [hbj, ← hx]

/-- The invariant carried by a DP row map: every nonzero entry at column
`j` is a chain of equal elements ending at `(i - 1, j)`, within bounds. -/
def PrevRow (a b : List Bytes) (alo blo bhi i : Nat) (m : Nat → Nat) : Prop :=
  ∀ j, m j ≠ 0 → ∃ r, r + 1 = i ∧ alo ≤ r ∧ blo ≤ j ∧ j < bhi ∧
    m j ≤ r + 1 - alo ∧ m j ≤ j + 1 - blo ∧
    sliceEq a b (r + 1 - m j) (j + 1 - m j) (m j)

/-- The invariant carried by the running best match: within bounds, a
genuine equal block when nonempty, and the untouched initial state when
empty. -/
def BestInv (a b : List Bytes) (alo ahi blo bhi : Nat) (best : FMatch) : Prop :=
  alo ≤ best.i ∧ blo ≤ best.j ∧
    (best.size = 0 → best.i = alo ∧ best.j = blo) ∧
    (best.size ≠ 0 → best.i + best.size ≤ ahi ∧ best.j + best.size ≤ bhi ∧
      sliceEq a b best.i best.j best.size)

theorem PrevRow_zero (a b : List Bytes) (alo blo bhi i : Nat) :
    PrevRow a b alo blo bhi i (fun _ => 0) := by
  intro j hj
  simp at hj

theorem BestInv_mk {a b : List Bytes} {alo ahi blo bhi i j k : Nat} (h1 : alo ≤ i)
    (h2 : blo ≤ j) (h3 : k = 0 → i = alo ∧ j = blo)
    (h4 : k ≠ 0 → i + k ≤ ahi ∧ j + k ≤ bhi ∧ sliceEq a b i j k) :
    BestInv a b alo ahi blo bhi ⟨i, j, k⟩ := ⟨h1, h2, h3, h4⟩

/-- The facts holding at one DP cell `(i, j)` with `j ∈ jsOf i`. -/
theorem dpCell_facts {a b : List Bytes} {alo blo bhi i : Nat} {old : Nat → Nat}
    (hold : PrevRow a b alo blo bhi i old) (hi : alo ≤ i) {j : Nat}
    (hj : j ∈ jsOf a b blo bhi i) :
    dpCell old j ≤ i + 1 - alo ∧ dpCell old j ≤ j + 1 - blo ∧ blo ≤ j ∧ j < bhi ∧
      sliceEq a b (i + 1 - dpCell old j) (j + 1 - dpCell old j) (dpCell old j) := by
  obtain ⟨hblo, hbhi, hsome, heq⟩ := mem_jsOf hj
  match j with
  | 0 =>
    have h1 : dpCell old 0 = 1 := rfl
    rw [h1]
    refine ⟨by omega, by omega, hblo, hbhi, ?_⟩
    have h2 : sliceEq a b i 0 1 := sliceEq_one heq.symm hsome
    rw [show i + 1 - 1 = i by omega, show 0 + 1 - 1 = 0 by omega]
    exact h2
  | jj + 1 =>
    have h1 : dpCell old (jj + 1) = old jj + 1 := rfl
    rw [h1]
    by_cases hz : old jj = 0
    · rw [hz]
      refine ⟨by omega, by omega, hblo, hbhi, ?_⟩
      have h2 : sliceEq a b i (jj + 1) 1 := sliceEq_one heq.symm hsome
      rw [show i + 1 - (0 + 1) = i by omega, show jj + 1 + 1 - (0 + 1) = jj + 1 by omega]
      exact h2
    · obtain ⟨r, hr, har, hbloj, hbhij, hm1, hm2, hsl⟩ := hold jj hz
      refine ⟨by omega, by omega, hblo, hbhi, ?_⟩
      have hle1 : old jj ≤ r + 1 := by omega
      have hle2 : old jj ≤ jj + 1 := by omega
      have hext : sliceEq a b (r + 1 - old jj) (jj + 1 - old jj) (old jj + 1) := by
        apply sliceEq_extend_right hsl
        · rw [show r + 1 - old jj + old jj = r + 1 by omega,
            show jj + 1 - old jj + old jj = jj + 1 by omega, hr]
          exact heq.symm
        · rw [show r + 1 - old jj + old jj = r + 1 by omega, hr]
          exact hsome
      rw [show i + 1 - (old jj + 1) = r + 1 - old jj by omega,
        show jj + 1 + 1 - (old jj + 1) = jj + 1 - old jj by omega]
      exact hext

/-- Processing a row preserves the best-match invariant and establishes the
row invariant for the produced map. -/
theorem dpRowGo_inv {a b : List Bytes} {alo ahi blo bhi i : Nat} {old : Nat → Nat}
    (hold : PrevRow a b alo blo bhi i old) (hi1 : alo ≤ i) (hi2 : i < ahi) :
    ∀ (js : List Nat) (cur : Nat → Nat) (best : FMatch),
      (∀ j ∈ js, j ∈ jsOf a b blo bhi i) →
      PrevRow a b alo blo bhi (i + 1) cur →
      BestInv a b alo ahi blo bhi best →
      PrevRow a b alo blo bhi (i + 1) (dpRowGo i old js cur best).1 ∧
        BestInv a b alo ahi blo bhi (dpRowGo i old js cur best).2
  | [], cur, best, _, hcur, hbest => ⟨hcur, hbest⟩
  | j :: js, cur, best, hjs, hcur, hbest => by
    rw [dpRowGo]
    have hj : j ∈ jsOf a b blo bhi i := hjs j (List.mem_cons_self j js)
    obtain ⟨hk1, hk2, hblo, hbhi, hsl⟩ := dpCell_facts hold hi1 hj
    have hkpos : dpCell old j ≠ 0 := by
      cases j <;> exact Nat.succ_ne_zero _
    apply dpRowGo_inv hold hi1 hi2 js _ _ (fun j2 hj2 => hjs j2 (List.mem_cons_of_mem j hj2))
    · intro j2 hj2
      by_cases hc : j2 = j
      · subst hc
        refine ⟨i, rfl, hi1, hblo, hbhi, ?_, ?_, ?_⟩ <;> simp only [if_pos rfl] at hj2 ⊢
        · exact hk1
        · exact hk2
        · exact hsl
      · simp only [if_neg hc] at hj2 ⊢
        exact hcur j2 hj2
    · by_cases hc : best.size < dpCell old j
      · rw [if_pos hc]
        refine BestInv_mk (by omega) (by omega) (fun h => absurd h hkpos)
          (fun _ => ⟨by omega, by omega, ?_⟩)
        simpa using hsl
      · rw [if_neg hc]
        exact hbest

/-- Running the rows `i, i+1, ..., i+cnt-1` preserves the best-match
invariant. -/
theorem dpRows_inv {a b : List Bytes} {alo ahi blo bhi : Nat} :
    ∀ (cnt i : Nat) (m : Nat → Nat) (best : FMatch), alo ≤ i → (cnt ≠ 0 → i + cnt ≤ ahi) →
      PrevRow a b alo blo bhi i m →
      BestInv a b alo ahi blo bhi best →
      BestInv a b alo ahi blo bhi (dpRows a b blo bhi (List.range' i cnt) m best)
  | 0, i, m, best, _, _, _, hbest => hbest
  | cnt + 1, i, m, best, hi1, hi2, hm, hbest => by
    rw [List.range'_succ, dpRows]
    have hend : i + (cnt + 1) ≤ ahi := hi2 (by omega)
    have hrow := dpRowGo_inv hm hi1 (by omega) (jsOf a b blo bhi i) (fun _ => 0) best
      (fun j hj => hj) (PrevRow_zero a b alo blo bhi (i + 1)) hbest
    exact dpRows_inv cnt (i + 1) _ _ (by omega) (fun _ => by omega) hrow.1 hrow.2

/-- Backward extension preserves the best-match invariant. -/
theorem extBack_inv {a b : List Bytes} {alo ahi blo bhi : Nat} :
    ∀ (bi bj size : Nat), BestInv a b alo ahi blo bhi ⟨bi, bj, size⟩ →
      BestInv a b alo ahi blo bhi (extBack a b alo blo bi bj size)
  | 0, bj, size, hbest => by
    rw [extBack]
    exact hbest
  | bi + 1, bj, size, hbest => by
    rw [extBack]
    by_cases hc : alo < bi + 1 ∧ blo < bj ∧ (a.get? bi).isSome = true ∧ a.get? bi = b.get? (bj - 1)
    · rw [if_pos hc]
      obtain ⟨hc1, hc2, hc3, hc4⟩ := hc
      obtain ⟨hb1, hb2, hbz, hb3⟩ := hbest
      have hsz : size ≠ 0 := by
        intro h
        have h2 := (hbz h).1
        simp only at h2
        omega
      obtain ⟨hb4, hb5, hb6⟩ := hb3 hsz
      have hb4i : bi + 1 + size ≤ ahi := hb4
      have hb5j : bj + size ≤ bhi := hb5
      apply extBack_inv bi (bj - 1) (size + 1)
      refine BestInv_mk (by omega) (by omega) (by omega) (fun _ => ⟨by omega, by omega, ?_⟩)
      have hsl : sliceEq a b bi (bj - 1) (size + 1) := by
        apply sliceEq_extend_left _ hc4 hc3
        rw [show bj - 1 + 1 = bj by omega]
        exact hb6
      exact hsl
    · rw [if_neg hc]
      exact hbest

/-- Forward extension preserves the best-match invariant. -/
theorem extFwdGo_inv {a b : List Bytes} {alo ahi blo bhi bi bj : Nat}
    (hbi : alo ≤ bi) (hbj : blo ≤ bj) :
    ∀ (fuel size : Nat), (size = 0 → bi = alo ∧ bj = blo) →
      (size ≠ 0 → bi + size ≤ ahi ∧ bj + size ≤ bhi) → sliceEq a b bi bj size →
      BestInv a b alo ahi blo bhi ⟨bi, bj, extFwdGo a b ahi bhi bi bj fuel size⟩
  | 0, size, hz, hbnd, hsl => BestInv_mk hbi hbj hz (fun h => ⟨(hbnd h).1, (hbnd h).2, hsl⟩)
  | fuel + 1, size, hz, hbnd, hsl => by
    rw [extFwdGo]
    by_cases hc : bi + size < ahi ∧ bj + size < bhi ∧ (a.get? (bi + size)).isSome = true ∧
        a.get? (bi + size) = b.get? (bj + size)
    · rw [if_pos hc]
      have hc1 := hc.1
      have hc2 := hc.2.1
      exact extFwdGo_inv hbi hbj fuel (size + 1) (fun h => absurd h (by omega))
        (fun _ => ⟨by omega, by omega⟩) (sliceEq_extend_right hsl hc.2.2.2 hc.2.2.1)
    · rw [if_neg hc]
      exact BestInv_mk hbi hbj hz (fun h => ⟨(hbnd h).1, (hbnd h).2, hsl⟩)

/-- The specification of `find_longest_match`: the returned block is within
bounds and genuinely equal. -/
theorem find_longest_match_spec (a b : List Bytes) (alo ahi blo bhi : Nat) :
    alo ≤ (find_longest_match a b alo ahi blo bhi).i ∧
      blo ≤ (find_longest_match a b alo ahi blo bhi).j ∧
      ((find_longest_match a b alo ahi blo bhi).size ≠ 0 →
        (find_longest_match a b alo ahi blo bhi).i + (find_longest_match a b alo ahi blo bhi).size ≤ ahi ∧
        (find_longest_match a b alo ahi blo bhi).j + (find_longest_match a b alo ahi blo bhi).size ≤ bhi ∧
        sliceEq a b (find_longest_match a b alo ahi blo bhi).i
          (find_longest_match a b alo ahi blo bhi).j
          (find_longest_match a b alo ahi blo bhi).size) := by
  rw [find_longest_match]
  have hbest : BestInv a b alo ahi blo bhi
      (dpRows a b blo bhi (List.range' alo (ahi - alo)) (fun _ => 0) ⟨alo, blo, 0⟩) := by
    apply dpRows_inv (ahi - alo) alo _ _ (Nat.le_refl alo) (fun h => by omega)
      (PrevRow_zero a b alo blo bhi alo)
    exact BestInv_mk (Nat.le_refl alo) (Nat.le_refl blo) (fun _ => ⟨rfl, rfl⟩)
      (fun h => absurd rfl h)
  set best := dpRows a b blo bhi (List.range' alo (ahi - alo)) (fun _ => 0) ⟨alo, blo, 0⟩ with hbdef
  have hext : BestInv a b alo ahi blo bhi (extBack a b alo blo best.i best.j best.size) :=
    extBack_inv best.i best.j best.size hbest
  set m := extBack a b alo blo best.i best.j best.size with hmdef
  obtain ⟨hm1, hm2, hmz, hm3⟩ := hext
  have hfin : BestInv a b alo ahi blo bhi ⟨m.i, m.j, extFwdGo a b ahi bhi m.i m.j ahi m.size⟩ := by
    apply extFwdGo_inv hm1 hm2 ahi m.size hmz
    · intro h
      exact ⟨(hm3 h).1, (hm3 h).2.1⟩
    · by_cases h : m.size = 0
      · rw [h]
        exact sliceEq_zero a b m.i m.j
      · exact (hm3 h).2.2
  exact ⟨hfin.1, hfin.2.1, hfin.2.2.2⟩

/-- The blocks collected over a window tile both ranges monotonically; each
is nonempty, within bounds and genuinely equal. -/
def ChainBlocks (a b : List Bytes) : Nat → Nat → Nat → Nat → List (Nat × Nat × Nat) → Prop
  | _, _, _, _, [] => True
  | ilo, jlo, ihi, jhi, (i, j, k) :: rest =>
    ilo ≤ i ∧ jlo ≤ j ∧ k ≠ 0 ∧ i + k ≤ ihi ∧ j + k ≤ jhi ∧ sliceEq a b i j k ∧
      ChainBlocks a b (i + k) (j + k) ihi jhi rest

theorem ChainBlocks_weaken {a b : List Bytes} :
    ∀ (bls : List (Nat × Nat × Nat)) (ilo jlo ihi jhi ilo2 jlo2 : Nat),
      ChainBlocks a b ilo jlo ihi jhi bls → ilo2 ≤ ilo → jlo2 ≤ jlo →
      ChainBlocks a b ilo2 jlo2 ihi jhi bls
  | [], _, _, _, _, _, _, _, _, _ => trivial
  | (i, j, k) :: rest, ilo, jlo, ihi, jhi, ilo2, jlo2, h, h1, h2 => by
    obtain ⟨g1, g2, g3, g4, g5, g6, g7⟩ := h
    exact ⟨by omega, by omega, g3, g4, g5, g6, g7⟩

theorem ChainBlocks_append {a b : List Bytes} :
    ∀ (bs1 bs2 : List (Nat × Nat × Nat)) (ilo jlo imid jmid ihi jhi : Nat),
      ChainBlocks a b ilo jlo imid jmid bs1 → ChainBlocks a b imid jmid ihi jhi bs2 →
      ilo ≤ imid → jlo ≤ jmid → imid ≤ ihi → jmid ≤ jhi →
      ChainBlocks a b ilo jlo ihi jhi (bs1 ++ bs2)
  | [], bs2, ilo, jlo, imid, jmid, ihi, jhi, _, h2, hle1, hle2, _, _ => by
    rw [List.nil_append]
    exact ChainBlocks_weaken bs2 imid jmid ihi jhi ilo jlo h2 hle1 hle2
  | (i, j, k) :: rest, bs2, ilo, jlo, imid, jmid, ihi, jhi, h1, h2, hle1, hle2, hm1, hm2 => by
    obtain ⟨g1, g2, g3, g4, g5, g6, g7⟩ := h1
    rw [List.cons_append]
    exact ⟨g1, g2, g3, by omega, by omega, g6,
      ChainBlocks_append rest bs2 (i + k) (j + k) imid jmid ihi jhi g7 h2 g4 g5 hm1 hm2⟩

/-- The recursively collected matching blocks tile the window. -/
theorem matchingBlocksGo_chain {a b : List Bytes} :
    ∀ (fuel alo ahi blo bhi : Nat), ahi - alo < fuel →
      ChainBlocks a b alo blo ahi bhi (matchingBlocksGo a b fuel alo ahi blo bhi)
  | 0, alo, ahi, blo, bhi, hfuel => by omega
  | fuel + 1, alo, ahi, blo, bhi, hfuel => by
    rw [matchingBlocksGo]
    obtain ⟨hs1, hs2, hs3⟩ := find_longest_match_spec a b alo ahi blo bhi
    set m := find_longest_match a b alo ahi blo bhi with hm
    by_cases hz : m.size = 0
    · rw [if_pos hz]
      trivial
    · rw [if_neg hz]
      obtain ⟨hb1, hb2, hsl⟩ := hs3 hz
      have hleft : ChainBlocks a b alo blo m.i m.j
          (if alo < m.i ∧ blo < m.j then matchingBlocksGo a b fuel alo m.i blo m.j else []) := by
        by_cases hc : alo < m.i ∧ blo < m.j
        · rw [if_pos hc]
          exact matchingBlocksGo_chain fuel alo m.i blo m.j (by omega)
        · rw [if_neg hc]
          trivial
      have hright : ChainBlocks a b (m.i + m.size) (m.j + m.size) ahi bhi
          (if m.i + m.size < ahi ∧ m.j + m.size < bhi then
            matchingBlocksGo a b fuel (m.i + m.size) ahi (m.j + m.size) bhi else []) := by
        by_cases hc : m.i + m.size < ahi ∧ m.j + m.size < bhi
        · rw [if_pos hc]
          exact matchingBlocksGo_chain fuel (m.i + m.size) ahi (m.j + m.size) bhi (by omega)
        · rw [if_neg hc]
          trivial
      have hmid : ChainBlocks a b m.i m.j ahi bhi ((m.i, m.j, m.size) ::
          (if m.i + m.size < ahi ∧ m.j + m.size < bhi then
            matchingBlocksGo a b fuel (m.i + m.size) ahi (m.j + m.size) bhi else [])) :=
        ⟨Nat.le_refl m.i, Nat.le_refl m.j, hz, hb1, hb2, hsl, hright⟩
      exact ChainBlocks_append _ _ alo blo m.i m.j ahi bhi hleft hmid hs1 hs2
        (by omega) (by omega)

/-- The adjacency merge preserves the tiling. -/
theorem mergeBlocks_chain {a b : List Bytes} {ihi jhi : Nat} :
    ∀ (bls : List (Nat × Nat × Nat)) (i1 j1 k1 ilo jlo : Nat), ilo ≤ i1 → jlo ≤ j1 →
      sliceEq a b i1 j1 k1 → (k1 ≠ 0 → i1 + k1 ≤ ihi ∧ j1 + k1 ≤ jhi) →
      ChainBlocks a b (i1 + k1) (j1 + k1) ihi jhi bls →
      ChainBlocks a b ilo jlo ihi jhi (mergeBlocks i1 j1 k1 bls)
  | [], i1, j1, k1, ilo, jlo, h1, h2, hsl, hbnd, _ => by
    rw [mergeBlocks]
    by_cases hz : k1 = 0
    · rw [if_pos hz]
      trivial
    · rw [if_neg hz]
      exact ⟨h1, h2, hz, (hbnd hz).1, (hbnd hz).2, hsl, trivial⟩
  | (i2, j2, k2) :: rest, i1, j1, k1, ilo, jlo, h1, h2, hsl, hbnd, hbs => by
    rw [mergeBlocks]
    obtain ⟨g1, g2, g3, g4, g5, g6, g7⟩ := hbs
    by_cases hc : i1 + k1 = i2 ∧ j1 + k1 = j2
    · rw [if_pos hc]
      apply mergeBlocks_chain rest i1 j1 (k1 + k2) ilo jlo h1 h2
      · have hsl2 : sliceEq a b (i1 + k1) (j1 + k1) k2 := by
          rw [hc.1, hc.2]
          exact g6
        exact sliceEq_append hsl hsl2
      · intro _
        constructor <;> omega
      · rw [show i1 + (k1 + k2) = i2 + k2 by omega, show j1 + (k1 + k2) = j2 + k2 by omega]
        exact g7
    · rw [if_neg hc]
      by_cases hz : k1 = 0
      · rw [if_pos hz]
        rw [List.nil_append]
        apply mergeBlocks_chain rest i2 j2 k2 ilo jlo (by omega) (by omega) g6
          (fun _ => ⟨g4, g5⟩) g7
      · rw [if_neg hz]
        rw [List.singleton_append]
        refine ⟨h1, h2, hz, (hbnd hz).1, (hbnd hz).2, hsl, ?_⟩
        exact mergeBlocks_chain rest i2 j2 k2 (i1 + k1) (j1 + k1) g1 g2 g6
          (fun _ => ⟨g4, g5⟩) g7

/-- The merged matching blocks (without the sentinel) tile both sequences. -/
theorem matching_blocks_chain (a b : List Bytes) :
    ChainBlocks a b 0 0 a.length b.length
      (mergeBlocks 0 0 0 (matchingBlocksGo a b (a.length + 1) 0 a.length 0 b.length)) := by
  apply mergeBlocks_chain _ 0 0 0 0 0 (Nat.le_refl 0) (Nat.le_refl 0)
    (sliceEq_zero a b 0 0) (fun h => absurd rfl h)
  simpa using matchingBlocksGo_chain (a.length + 1) 0 a.length 0 b.length (by omega)

/-- The opcode list tiles both sequences from `(ci, cj)` to `(ei, ej)`:
consecutive ranges, equal opcodes genuinely equal with equal widths, delete
opcodes with an empty new range, insert opcodes with an empty old range. -/
def ChainOps (a b : List Bytes) : Nat → Nat → Nat → Nat → List Opcode → Prop
  | ci, cj, ei, ej, [] => ci = ei ∧ cj = ej
  | ci, cj, ei, ej, c :: rest =>
    c.i1 = ci ∧ c.j1 = cj ∧ ci ≤ c.i2 ∧ cj ≤ c.j2 ∧
      (c.tag = .equal → c.i2 - c.i1 = c.j2 - c.j1 ∧ sliceEq a b c.i1 c.j1 (c.i2 - c.i1)) ∧
      (c.tag = .delete → c.j1 = c.j2) ∧ (c.tag = .insert → c.i1 = c.i2) ∧
      ChainOps a b c.i2 c.j2 ei ej rest

theorem ChainOps_cons {a b : List Bytes} {tg : Tag} {i1 i2 j1 j2 ci cj ei ej : Nat}
    {rest : List Opcode} (h1 : i1 = ci) (h2 : j1 = cj) (h3 : ci ≤ i2) (h4 : cj ≤ j2)
    (h5 : tg = Tag.equal → i2 - i1 = j2 - j1 ∧ sliceEq a b i1 j1 (i2 - i1))
    (h6 : tg = Tag.delete → j1 = j2) (h7 : tg = Tag.insert → i1 = i2)
    (h8 : ChainOps a b i2 j2 ei ej rest) :
    ChainOps a b ci cj ei ej (Opcode.mk tg i1 i2 j1 j2 :: rest) :=
  ⟨h1, h2, h3, h4, h5, h6, h7, h8⟩

theorem ChainOps_append {a b : List Bytes} :
    ∀ (l1 l2 : List Opcode) (ci cj mi mj ei ej : Nat),
      ChainOps a b ci cj mi mj l1 → ChainOps a b mi mj ei ej l2 →
      ChainOps a b ci cj ei ej (l1 ++ l2)
  | [], l2, ci, cj, mi, mj, ei, ej, h1, h2 => by
    rw [List.nil_append]
    obtain ⟨rfl, rfl⟩ := h1
    exact h2
  | c :: rest, l2, ci, cj, mi, mj, ei, ej, h1, h2 => by
    obtain ⟨g1, g2, g3, g4, g5, g6, g7, g8⟩ := h1
    exact ⟨g1, g2, g3, g4, g5, g6, g7, ChainOps_append rest l2 c.i2 c.j2 mi mj ei ej g8 h2⟩

theorem ChainOps_le {a b : List Bytes} :
    ∀ (ops : List Opcode) (ci cj ei ej : Nat), ChainOps a b ci cj ei ej ops →
      ci ≤ ei ∧ cj ≤ ej
  | [], ci, cj, ei, ej, h => ⟨Nat.le_of_eq h.1, Nat.le_of_eq h.2⟩
  | c :: rest, ci, cj, ei, ej, h => by
    obtain ⟨g1, g2, g3, g4, g5, g6, g7, g8⟩ := h
    have := ChainOps_le rest c.i2 c.j2 ei ej g8
    omega

/-- `get_opcodes` produces a tiling opcode list (processing the tiled
blocks, with the sentinel appended). -/
theorem opcodesGo_chain {a b : List Bytes} :
    ∀ (bls : List (Nat × Nat × Nat)) (i j : Nat),
      ChainBlocks a b i j a.length b.length bls → i ≤ a.length → j ≤ b.length →
      ChainOps a b i j a.length b.length
        (opcodesGo i j (bls ++ [(a.length, b.length, 0)]))
  | [], i, j, _, hi, hj => by
    rw [List.nil_append, opcodesGo]
    have hgap : ChainOps a b a.length b.length a.length b.length
        (opcodesGo (a.length + 0) (b.length + 0) []) := by
      rw [opcodesGo]
      exact ⟨rfl, rfl⟩
    by_cases hc1 : i < a.length ∧ j < b.length
    · rw [if_pos hc1]
      simp only [if_pos rfl, List.singleton_append, Nat.add_zero] at hgap ⊢
      exact ChainOps_cons rfl rfl (by omega) (by omega) (by simp) (by simp) (by simp) hgap
    · rw [if_neg hc1]
      by_cases hc2 : i < a.length
      · rw [if_pos hc2]
        have hj2 : j = b.length := by omega
        subst hj2
        simp only [Nat.add_zero] at hgap ⊢
        exact ChainOps_cons rfl rfl (by omega) (by omega) (by simp) (fun _ => rfl)
          (by simp) hgap
      · rw [if_neg hc2]
        by_cases hc3 : j < b.length
        · rw [if_pos hc3]
          have hi2 : i = a.length := by omega
          subst hi2
          simp only [Nat.add_zero] at hgap ⊢
          exact ChainOps_cons rfl rfl (by omega) (by omega) (by simp) (by simp)
            (fun _ => rfl) hgap
        · rw [if_neg hc3]
          have hi2 : i = a.length := by omega
          have hj2 : j = b.length := by omega
          subst hi2
          subst hj2
          simpa using hgap
  | (bi, bj, k) :: rest, i, j, hbs, hi, hj => by
    obtain ⟨g1, g2, g3, g4, g5, g6, g7⟩ := hbs
    rw [List.cons_append, opcodesGo]
    rw [if_neg (by omega : ¬k = 0)]
    have hrec := opcodesGo_chain rest (bi + k) (bj + k) g7 (by omega) (by omega)
    have heq : ChainOps a b bi bj a.length b.length
        (Opcode.mk .equal bi (bi + k) bj (bj + k) ::
          opcodesGo (bi + k) (bj + k) (rest ++ [(a.length, b.length, 0)])) := by
      refine ChainOps_cons rfl rfl (by omega) (by omega) ?_ (by simp) (by simp) hrec
      intro _
      constructor
      · simp
      · simp only [show bi + k - bi = k by omega]
        exact g6
    by_cases hc1 : i < bi ∧ j < bj
    · rw [if_pos hc1]
      rw [List.singleton_append]
      exact ChainOps_cons rfl rfl (by omega) (by omega) (by simp) (by simp) (by simp) heq
    · rw [if_neg hc1]
      by_cases hc2 : i < bi
      · rw [if_pos hc2]
        have hj2 : j = bj := by omega
        subst hj2
        rw [List.singleton_append]
        exact ChainOps_cons rfl rfl (by omega) (by omega) (by simp) (fun _ => rfl)
          (by simp) heq
      · rw [if_neg hc2]
        by_cases hc3 : j < bj
        · rw [if_pos hc3]
          have hi2 : i = bi := by omega
          subst hi2
          rw [List.singleton_append]
          exact ChainOps_cons rfl rfl (by omega) (by omega) (by simp) (by simp)
            (fun _ => rfl) heq
        · rw [if_neg hc3]
          have hi2 : i = bi := by omega
          have hj2 : j = bj := by omega
          subst hi2
          subst hj2
          simpa using heq

/-- The full opcode list of `get_opcodes` tiles both sequences. -/
theorem get_opcodes_chain (a b : List Bytes) :
    ChainOps a b 0 0 a.length b.length (get_opcodes a b) := by
  rw [get_opcodes, get_matching_blocks]
  exact opcodesGo_chain _ 0 0 (matching_blocks_chain a b) (Nat.zero_le _) (Nat.zero_le _)

/-- After both context fixups, the code list tiles `(si, sj) .. (ei, ej)`
where the leading gap `[0, si) = [0, sj)` and the trailing gap
`[ei, la) = [ej, lb)` are element-for-element equal regions. -/
def TrimmedOps (a b : List Bytes) (si sj ei ej : Nat) (codes : List Opcode) : Prop :=
  si = sj ∧ sliceEq a b 0 0 si ∧ ChainOps a b si sj ei ej codes ∧
    a.length - ei = b.length - ej ∧ ei ≤ a.length ∧ ej ≤ b.length ∧
    sliceEq a b ei ej (a.length - ei)

/-- The head fixup preserves the tiling, trimming the leading equal opcode
and leaving an equal leading gap. -/
theorem fixupHead_chain {a b : List Bytes} {n : Nat} :
    ∀ (codes : List Opcode), codes ≠ [] → ChainOps a b 0 0 a.length b.length codes →
      ∃ si, sliceEq a b 0 0 si ∧
        ChainOps a b si si a.length b.length (fixupHead n codes)
  | [], hne, _ => absurd rfl hne
  | c :: rest, _, h => by
    obtain ⟨g1, g2, g3, g4, g5, g6, g7, g8⟩ := h
    rw [fixupHead]
    by_cases he : c.tag = Tag.equal
    · rw [if_pos he]
      obtain ⟨hw, hsl⟩ := g5 he
      rw [g1, g2] at hw hsl ⊢
      simp only [Nat.sub_zero] at hw hsl
      have hj2 : c.j2 = c.i2 := hw.symm
      rw [hj2] at g8 ⊢
      refine ⟨max 0 (c.i2 - n), sliceEq_mono hsl (by omega), ?_⟩
      refine ChainOps_cons rfl rfl (by omega) (by omega) ?_ (by simp) (by simp) ?_
      · intro _
        refine ⟨by omega, ?_⟩
        have := sliceEq_sub hsl (max 0 (c.i2 - n)) (c.i2 - max 0 (c.i2 - n)) (by omega)
        simpa using this
      · exact g8
    · rw [if_neg he]
      refine ⟨0, sliceEq_zero a b 0 0, ?_⟩
      exact ⟨g1, g2, g3, g4, g5, g6, g7, g8⟩

/-- The tail fixup preserves the tiling, trimming the trailing equal opcode
and leaving an equal trailing gap. -/
theorem fixupLast_chain {a b : List Bytes} {n : Nat} :
    ∀ (codes : List Opcode) (si sj ei ej : Nat), ChainOps a b si sj ei ej codes →
      ∃ ei2 ej2, ei2 ≤ ei ∧ ej2 ≤ ej ∧ ei - ei2 = ej - ej2 ∧
        sliceEq a b ei2 ej2 (ei - ei2) ∧ ChainOps a b si sj ei2 ej2 (fixupLast n codes)
  | [], si, sj, ei, ej, h => by
    obtain ⟨rfl, rfl⟩ := h
    exact ⟨si, sj, Nat.le_refl si, Nat.le_refl sj, by omega,
      by simpa using sliceEq_zero a b si sj, rfl, rfl⟩
  | [c], si, sj, ei, ej, h => by
    obtain ⟨g1, g2, g3, g4, g5, g6, g7, g8⟩ := h
    obtain ⟨he1, he2⟩ := g8
    rw [fixupLast]
    by_cases he : c.tag = Tag.equal
    · rw [if_pos he]
      obtain ⟨hw, hsl⟩ := g5 he
      refine ⟨min c.i2 (c.i1 + n), min c.j2 (c.j1 + n), by omega, by omega, by omega, ?_, ?_⟩
      · have hs2 := sliceEq_sub hsl (min c.i2 (c.i1 + n) - c.i1) (c.i2 - min c.i2 (c.i1 + n))
          (by omega)
        rw [show c.i1 + (min c.i2 (c.i1 + n) - c.i1) = min c.i2 (c.i1 + n) by omega,
          show c.j1 + (min c.i2 (c.i1 + n) - c.i1) = min c.j2 (c.j1 + n) by omega,
          show c.i2 - min c.i2 (c.i1 + n) = ei - min c.i2 (c.i1 + n) by omega] at hs2
        exact hs2
      · refine ChainOps_cons g1 g2 (by omega) (by omega) ?_ (by simp) (by simp) ⟨rfl, rfl⟩
        intro _
        refine ⟨by omega, ?_⟩
        have hs3 := sliceEq_sub hsl 0 (min c.i2 (c.i1 + n) - c.i1) (by omega)
        simpa using hs3
    · rw [if_neg he]
      exact ⟨ei, ej, Nat.le_refl ei, Nat.le_refl ej, by omega,
        by simpa using sliceEq_zero a b ei ej,
        ⟨g1, g2, g3, g4, g5, g6, g7, he1, he2⟩⟩
  | c :: c2 :: rest, si, sj, ei, ej, h => by
    obtain ⟨g1, g2, g3, g4, g5, g6, g7, g8⟩ := h
    obtain ⟨ei2, ej2, k1, k2, k3, k4, k5⟩ := fixupLast_chain (c2 :: rest) c.i2 c.j2 ei ej g8
    exact ⟨ei2, ej2, k1, k2, k3, k4, g1, g2, g3, g4, g5, g6, g7, k5⟩

/-- Well-formed group list from position `(pi, pj)`: before each group and
after the last one the two sequences agree region-for-region, and each
group is a nonempty opcode tiling. -/
def GroupsWF (a b : List Bytes) : Nat → Nat → List (List Opcode) → Prop
  | pi, pj, [] => a.length - pi = b.length - pj ∧ pi ≤ a.length ∧ pj ≤ b.length ∧
      sliceEq a b pi pj (a.length - pi)
  | pi, pj, g :: rest =>
      ∃ si sj ei ej, g ≠ [] ∧ pi ≤ si ∧ pj ≤ sj ∧ si - pi = sj - pj ∧
        sliceEq a b pi pj (si - pi) ∧ ChainOps a b si sj ei ej g ∧ GroupsWF a b ei ej rest

/-- Compose an equal leading gap with a following equal region. -/
theorem gap_compose {a b : List Bytes} {pi pj si sj w : Nat} (h1 : pi ≤ si) (h2 : pj ≤ sj)
    (h3 : si - pi = sj - pj) (h4 : sliceEq a b pi pj (si - pi))
    (h5 : sliceEq a b si sj w) :
    sliceEq a b pi pj (si - pi + w) := by
  apply sliceEq_append h4
  rw [show pi + (si - pi) = si by omega, show pj + (si - pi) = sj by omega]
  exact h5

/-- The nil-group case of the grouping loop: everything from `(pi, pj)` on
is an equal region. -/
theorem groupsWF_nil {a b : List Bytes} {pi pj ei ej : Nat} (h1 : pi ≤ ei) (h2 : pj ≤ ej)
    (h3 : ei - pi = ej - pj) (h4 : sliceEq a b pi pj (ei - pi))
    (h5 : a.length - ei = b.length - ej) (h6 : ei ≤ a.length) (h7 : ej ≤ b.length)
    (h8 : sliceEq a b ei ej (a.length - ei)) :
    GroupsWF a b pi pj [] := by
  refine ⟨by omega, by omega, by omega, ?_⟩
  have := gap_compose h1 h2 h3 h4 h8
  rw [show ei - pi + (a.length - ei) = a.length - pi by omega] at this
  exact this

/-- The grouping loop builds a well-formed group list. -/
theorem groupSplitGo_wf {a b : List Bytes} {n : Nat} :
    ∀ (codes group : List Opcode) (pi pj si sj ci cj ei ej : Nat),
      pi ≤ si → pj ≤ sj → si - pi = sj - pj → sliceEq a b pi pj (si - pi) →
      ChainOps a b si sj ci cj group →
      ChainOps a b ci cj ei ej codes →
      a.length - ei = b.length - ej → ei ≤ a.length → ej ≤ b.length →
      sliceEq a b ei ej (a.length - ei) →
      GroupsWF a b pi pj (groupSplitGo n group codes)
  | [], group, pi, pj, si, sj, ci, cj, ei, ej, hg1, hg2, hg3, hg4, hgrp, hcodes, ht1, ht2,
      ht3, ht4 => by
    obtain ⟨rfl, rfl⟩ := hcodes
    rw [groupSplitGo]
    match group, hgrp with
    | [], hgrp =>
      obtain ⟨rfl, rfl⟩ := hgrp
      rw [groupFlush]
      exact groupsWF_nil hg1 hg2 hg3 hg4 ht1 ht2 ht3 ht4
    | [c], hgrp =>
      obtain ⟨k1, k2, k3, k4, k5, k6, k7, k8, k9⟩ := hgrp
      rw [groupFlush]
      by_cases he : c.tag = Tag.equal
      · rw [if_pos he]
        obtain ⟨hw, hsl⟩ := k5 he
        rw [k1, k2] at hw hsl
        rw [k8] at hw hsl
        rw [k9] at hw
        have hstep : sliceEq a b pi pj (si - pi + (ci - si)) :=
          gap_compose hg1 hg2 hg3 hg4 hsl
        apply @groupsWF_nil a b pi pj ci cj
          (by omega) (by omega) (by omega) ?_ ht1 ht2 ht3 ht4
        rw [show ci - pi = si - pi + (ci - si) by omega]
        exact hstep
      · rw [if_neg he]
        refine ⟨si, sj, ci, cj, by simp, hg1, hg2, hg3, hg4,
          ⟨k1, k2, k3, k4, k5, k6, k7, k8, k9⟩, ?_⟩
        apply groupsWF_nil (Nat.le_refl ci) (Nat.le_refl cj) (by omega) _ ht1 ht2 ht3 ht4
        simpa using sliceEq_zero a b ci cj
    | c1 :: c2 :: g, hgrp =>
      have hf : groupFlush (c1 :: c2 :: g) = [c1 :: c2 :: g] := rfl
      rw [hf]
      refine ⟨si, sj, ci, cj, by simp, hg1, hg2, hg3, hg4, hgrp, ?_⟩
      apply groupsWF_nil (Nat.le_refl ci) (Nat.le_refl cj) (by omega) _ ht1 ht2 ht3 ht4
      simpa using sliceEq_zero a b ci cj
  | c :: rest, group, pi, pj, si, sj, ci, cj, ei, ej, hg1, hg2, hg3, hg4, hgrp, hcodes, ht1,
      ht2, ht3, ht4 => by
    obtain ⟨m1, m2, m3, m4, m5, m6, m7, m8⟩ := hcodes
    rw [groupSplitGo]
    by_cases hc : c.tag = Tag.equal ∧ n + n < c.i2 - c.i1
    · rw [if_pos hc]
      obtain ⟨hw, hsl⟩ := m5 hc.1
      have hn1 : c.i1 + n < c.i2 := by omega
      have hn2 : c.j1 + n < c.j2 := by omega
      have heiT : min c.i2 (c.i1 + n) = c.i1 + n := by omega
      have hejT : min c.j2 (c.j1 + n) = c.j1 + n := by omega
      have hsiN : max c.i1 (c.i2 - n) = c.i2 - n := by omega
      have hsjN : max c.j1 (c.j2 - n) = c.j2 - n := by omega
      have hcT : ChainOps a b ci cj (min c.i2 (c.i1 + n)) (min c.j2 (c.j1 + n))
          [Opcode.mk Tag.equal c.i1 (min c.i2 (c.i1 + n)) c.j1 (min c.j2 (c.j1 + n))] := by
        refine ChainOps_cons m1 m2 (by omega) (by omega) ?_ (by simp) (by simp) ⟨rfl, rfl⟩
        intro _
        exact ⟨by omega, sliceEq_mono hsl (by omega)⟩
      have hemit : ChainOps a b si sj (min c.i2 (c.i1 + n)) (min c.j2 (c.j1 + n))
          (group ++ [Opcode.mk Tag.equal c.i1 (min c.i2 (c.i1 + n)) c.j1
            (min c.j2 (c.j1 + n))]) :=
        ChainOps_append _ _ _ _ _ _ _ _ hgrp hcT
      have hcN : ChainOps a b (max c.i1 (c.i2 - n)) (max c.j1 (c.j2 - n)) c.i2 c.j2
          [Opcode.mk Tag.equal (max c.i1 (c.i2 - n)) c.i2 (max c.j1 (c.j2 - n)) c.j2] := by
        refine ChainOps_cons rfl rfl (by omega) (by omega) ?_ (by simp) (by simp) ⟨rfl, rfl⟩
        intro _
        refine ⟨by omega, ?_⟩
        have hs2 := sliceEq_sub hsl (max c.i1 (c.i2 - n) - c.i1) (c.i2 - max c.i1 (c.i2 - n))
          (by omega)
        rw [show c.i1 + (max c.i1 (c.i2 - n) - c.i1) = max c.i1 (c.i2 - n) by omega,
          show c.j1 + (max c.i1 (c.i2 - n) - c.i1) = max c.j1 (c.j2 - n) by omega] at hs2
        exact hs2
      have hgap2 : sliceEq a b (min c.i2 (c.i1 + n)) (min c.j2 (c.j1 + n))
          (max c.i1 (c.i2 - n) - min c.i2 (c.i1 + n)) := by
        have hs2 := sliceEq_sub hsl (min c.i2 (c.i1 + n) - c.i1)
          (max c.i1 (c.i2 - n) - min c.i2 (c.i1 + n)) (by omega)
        rw [show c.i1 + (min c.i2 (c.i1 + n) - c.i1) = min c.i2 (c.i1 + n) by omega,
          show c.j1 + (min c.i2 (c.i1 + n) - c.i1) = min c.j2 (c.j1 + n) by omega] at hs2
        exact hs2
      refine ⟨si, sj, min c.i2 (c.i1 + n), min c.j2 (c.j1 + n), by simp, hg1, hg2, hg3, hg4,
        hemit, ?_⟩
      exact groupSplitGo_wf rest _ _ _ _ _ _ _ _ _ (by omega) (by omega) (by omega) hgap2
        hcN m8 ht1 ht2 ht3 ht4
    · rw [if_neg hc]
      have hext : ChainOps a b si sj c.i2 c.j2 (group ++ [c]) :=
        ChainOps_append _ _ _ _ _ _ _ _ hgrp ⟨m1, m2, m3, m4, m5, m6, m7, rfl, rfl⟩
      exact groupSplitGo_wf rest _ _ _ _ _ _ _ _ _ hg1 hg2 hg3 hg4 hext m8 ht1 ht2 ht3 ht4

/-- The fabricated single equal opcode (empty-opcode case) never survives
grouping. -/
theorem groupSplit_fabricated (n : Nat) :
    groupSplitGo n [] (fixupLast n (fixupHead n [Opcode.mk Tag.equal 0 1 0 1])) = [] := by
  match n with
  | 0 => rfl
  | n + 1 =>
    have h1 : fixupHead (n + 1) [Opcode.mk Tag.equal 0 1 0 1] =
        [Opcode.mk Tag.equal 0 1 0 1] := by
      rw [fixupHead, if_pos rfl]
      have e1 : (1 : Nat) - (n + 1) = 0 := by omega
      simp [e1]
    have h2 : fixupLast (n + 1) [Opcode.mk Tag.equal 0 1 0 1] =
        [Opcode.mk Tag.equal 0 1 0 1] := by
      rw [fixupLast, if_pos rfl]
      have e2 : min 1 (0 + (n + 1)) = 1 := by omega
      simp [e2]
    rw [h1, h2, groupSplitGo, if_neg (by simp), groupSplitGo, List.nil_append, groupFlush,
      if_pos rfl]

/-- The central structural theorem: the grouped opcodes of any two line
sequences form a well-formed group list covering both sequences. -/
theorem get_grouped_opcodes_wf (a b : List Bytes) (n : Nat) :
    GroupsWF a b 0 0 (get_grouped_opcodes a b n) := by
  have hchain := get_opcodes_chain a b
  rw [get_grouped_opcodes]
  by_cases hz : get_opcodes a b = []
  · rw [if_pos hz]
    rw [hz] at hchain
    obtain ⟨ha, hb⟩ := hchain
    rw [groupSplit_fabricated n]
    refine ⟨by omega, by omega, by omega, ?_⟩
    rw [show a.length - 0 = 0 by omega]
    exact sliceEq_zero a b 0 0
  · rw [if_neg hz]
    obtain ⟨si, hpre, hchain1⟩ := fixupHead_chain (get_opcodes a b) hz hchain
    obtain ⟨ei2, ej2, k1, k2, k3, k4, k5⟩ :=
      @fixupLast_chain a b n (fixupHead n (get_opcodes a b)) si si a.length b.length hchain1
    apply groupSplitGo_wf _ [] 0 0 si si si si ei2 ej2 (Nat.zero_le si) (Nat.zero_le si)
      rfl (by simpa using hpre) ⟨rfl, rfl⟩ k5 (by omega) (by omega) (by omega) k4

/-! Numerals: the decimal rendering and its parse. -/

theorem digitChar_isDigit {d : Nat} (h : d < 10) : (Nat.digitChar d).isDigit = true := by
  interval_cases d <;> decide

theorem digitChar_toNat {d : Nat} (h : d < 10) : (Nat.digitChar d).toNat - 48 = d := by
  interval_cases d <;> decide

theorem natToBytesGo_digits : ∀ (fuel m : Nat), ∀ c ∈ natToBytesGo fuel m, c.isDigit = true
  | 0, m => by
    intro c hc
    simp [natToBytesGo] at hc
  | fuel + 1, m => by
    intro c hc
    rw [natToBytesGo] at hc
    by_cases h : m < 10
    · rw [if_pos h] at hc
      simp at hc
      subst hc
      exact digitChar_isDigit h
    · rw [if_neg h] at hc
      rcases List.mem_append.mp hc with h2 | h2
      · exact natToBytesGo_digits fuel (m / 10) c h2
      · simp at h2
        subst h2
        exact digitChar_isDigit (Nat.mod_lt m (by omega))

theorem natToBytesGo_ne_nil : ∀ (fuel m : Nat), fuel ≠ 0 → natToBytesGo fuel m ≠ []
  | 0, m, h => absurd rfl h
  | fuel + 1, m, _ => by
    rw [natToBytesGo]
    by_cases h : m < 10
    · rw [if_pos h]
      simp
    · rw [if_neg h]
      simp

theorem natToBytes_digits (m : Nat) : ∀ c ∈ natToBytes m, c.isDigit = true :=
  natToBytesGo_digits (m + 1) m

theorem natToBytes_ne_nil (m : Nat) : natToBytes m ≠ [] :=
  natToBytesGo_ne_nil (m + 1) m (by omega)

theorem natToBytesGo_parse : ∀ (fuel m acc : Nat), m < fuel →
    (natToBytesGo fuel m).foldl (fun x c => x * 10 + (c.toNat - 48)) acc =
      acc * 10 ^ (natToBytesGo fuel m).length + m := by
  intro fuel
  induction fuel with
  | zero => omega
  | succ fuel ih =>
    intro m acc hm
    rw [natToBytesGo]
    by_cases h : m < 10
    · rw [if_pos h]
      simp [digitChar_toNat h]
    · rw [if_neg h]
      rw [List.foldl_append]
      have hrec := ih (m / 10) acc (by omega)
      rw [hrec]
      simp only [List.foldl_cons, List.foldl_nil, List.length_append, List.length_singleton]
      rw [digitChar_toNat (Nat.mod_lt m (by omega))]
      rw [pow_succ]
      have : m / 10 * 10 + m % 10 = m := by omega
      ring_nf
      omega

theorem parseNatBytes_natToBytes (m : Nat) : parseNatBytes (natToBytes m) = m := by
  rw [parseNatBytes, natToBytes]
  rw [natToBytesGo_parse (m + 1) m 0 (by omega)]
  simp

/-- takeWhile over an all-true block followed by a false element. -/
theorem takeWhile_append_block {p : Char → Bool} :
    ∀ (ds r : Bytes) (c0 : Char), (∀ c ∈ ds, p c = true) → p c0 = false →
      (ds ++ c0 :: r).takeWhile p = ds
  | [], r, c0, _, hc0 => by simp [List.takeWhile_cons, hc0]
  | d :: ds, r, c0, hds, hc0 => by
    rw [List.cons_append, List.takeWhile_cons, hds d (List.mem_cons_self d ds)]
    rw [takeWhile_append_block ds r c0 (fun c hc => hds c (List.mem_cons_of_mem d hc)) hc0]
    simp

/-- Parsing a hunk header that was produced by the formatter recovers the
old-side start and width. -/
theorem parseHunkHeader_hunkHeader (i1 i2 j1 j2 : Nat) :
    parseHunkHeader (hunkHeader i1 i2 j1 j2) = some (i1 + 1, i2 - i1) := by
  rw [parseHunkHeader, hunkHeader]
  have hpre : (bs "@@ -").isPrefixOf (bs "@@ -" ++ natToBytes (i1 + 1) ++ bs "," ++
      natToBytes (i2 - i1) ++ bs " +" ++ natToBytes (j1 + 1) ++ bs "," ++
      natToBytes (j2 - j1) ++ bs " @@\n") = true := by
    rw [List.isPrefixOf_iff_prefix]
    simp only [List.append_assoc]
    exact List.prefix_append _ _
  rw [if_pos hpre]
  have hd4 : ∀ r : Bytes, (bs "@@ -" ++ r).drop 4 = r := fun r => rfl
  simp only [List.append_assoc]
  rw [hd4]
  set r1 : Bytes := bs "," ++ (natToBytes (i2 - i1) ++ (bs " +" ++ (natToBytes (j1 + 1) ++
    (bs "," ++ (natToBytes (j2 - j1) ++ bs " @@\n"))))) with hr1
  have hr1c : r1 = ',' :: (natToBytes (i2 - i1) ++ (bs " +" ++ (natToBytes (j1 + 1) ++
      (bs "," ++ (natToBytes (j2 - j1) ++ bs " @@\n"))))) := rfl
  have htw1 : (natToBytes (i1 + 1) ++ r1).takeWhile Char.isDigit = natToBytes (i1 + 1) := by
    rw [hr1c]
    exact takeWhile_append_block _ _ _ (natToBytes_digits (i1 + 1)) (by decide)
  rw [htw1]
  rw [List.drop_left]
  have hne1 : natToBytes (i1 + 1) ≠ [] := natToBytes_ne_nil (i1 + 1)
  rw [if_pos (by rw [hr1c]; exact ⟨hne1, rfl⟩)]
  have hd1 : r1.drop 1 = natToBytes (i2 - i1) ++ (bs " +" ++ (natToBytes (j1 + 1) ++
      (bs "," ++ (natToBytes (j2 - j1) ++ bs " @@\n")))) := by
    rw [hr1c]
    rfl
  rw [hd1]
  have htw2 : (natToBytes (i2 - i1) ++ (bs " +" ++ (natToBytes (j1 + 1) ++
      (bs "," ++ (natToBytes (j2 - j1) ++ bs " @@\n"))))).takeWhile Char.isDigit =
      natToBytes (i2 - i1) := by
    have : bs " +" ++ (natToBytes (j1 + 1) ++ (bs "," ++ (natToBytes (j2 - j1) ++
        bs " @@\n"))) = ' ' :: ('+' :: (natToBytes (j1 + 1) ++ (bs "," ++
        (natToBytes (j2 - j1) ++ bs " @@\n")))) := rfl
    rw [this]
    exact takeWhile_append_block _ _ _ (natToBytes_digits (i2 - i1)) (by decide)
  rw [htw2]
  rw [if_pos (natToBytes_ne_nil (i2 - i1))]
  rw [parseNatBytes_natToBytes, parseNatBytes_natToBytes]

/-! Slices of equal regions are equal lists. -/

theorem listSlice_eq_of_sliceEq {a b : List Bytes} {i j k : Nat} (h : sliceEq a b i j k) :
    listSlice a i (i + k) = listSlice b j (j + k) := by
  apply List.ext_get?
  intro t
  rw [listSlice, listSlice, show i + k - i = k by omega, show j + k - j = k by omega]
  by_cases ht : t < k
  · rw [List.get?_take ht, List.get?_take ht, List.get?_drop, List.get?_drop]
    exact (h t ht).1
  · have h1 : (List.take k (a.drop i)).get? t = none := by
      rw [List.get?_eq_none]
      have := List.length_take k (a.drop i)
      omega
    have h2 : (List.take k (b.drop j)).get? t = none := by
      rw [List.get?_eq_none]
      have := List.length_take k (b.drop j)
      omega
    rw [h1, h2]

theorem drop_eq_of_sliceEq {a b : List Bytes} {ei ej : Nat}
    (hw : a.length - ei = b.length - ej) (h : sliceEq a b ei ej (a.length - ei))
    (h1 : ei ≤ a.length) (h2 : ej ≤ b.length) : a.drop ei = b.drop ej := by
  apply List.ext_get?
  intro t
  rw [List.get?_drop, List.get?_drop]
  by_cases ht : t < a.length - ei
  · exact (h t ht).1
  · have g1 : a.get? (ei + t) = none := by
      rw [List.get?_eq_none]
      omega
    have g2 : b.get? (ej + t) = none := by
      rw [List.get?_eq_none]
      omega
    rw [g1, g2]

theorem listSlice_split {l : List Bytes} {i m e : Nat} (h1 : i ≤ m) (h2 : m ≤ e) :
    listSlice l i e = listSlice l i m ++ listSlice l m e := by
  rw [listSlice, listSlice, listSlice]
  rw [show e - i = (m - i) + (e - m) by omega]
  rw [List.take_add, List.drop_drop, show i + (m - i) = m by omega]

theorem mem_of_mem_listSlice {l : List Bytes} {x : Bytes} {i e : Nat}
    (h : x ∈ listSlice l i e) : x ∈ l := by
  rw [listSlice] at h
  exact List.mem_of_mem_drop (List.mem_of_mem_take h)

/-! The reference apply, stepping over the formatter's output. -/

theorem unmangle_fixNl {l : Bytes} (h : ¬ noNlMarker.isSuffixOf l = true) :
    unmangle (fixNl l) = l := by
  rw [fixNl]
  by_cases he : l.getLast? = some '\n'
  · rw [if_pos he, unmangle]
    rw [if_neg h]
  · rw [if_neg he, unmangle]
    have hsuf : noNlMarker.isSuffixOf (l ++ noNlMarker) = true := by
      rw [List.isSuffixOf_iff_suffix]
      exact List.suffix_append l noNlMarker
    rw [if_pos hsuf]
    rw [List.length_append]
    rw [show l.length + noNlMarker.length - noNlMarker.length = l.length by omega]
    exact List.take_left l noNlMarker

theorem applyHunks_step_space {a : List Bytes} {pos : Nat} {x : Bytes} {rest acc : List Bytes} :
    applyHunks a pos ((' ' :: x) :: rest) acc = applyHunks a pos rest (acc ++ [x]) := by
  simp only [applyHunks, List.head?_cons, List.tail_cons]
  rw [if_neg (by simp)]
  simp

theorem applyHunks_step_plus {a : List Bytes} {pos : Nat} {x : Bytes} {rest acc : List Bytes} :
    applyHunks a pos (('+' :: x) :: rest) acc = applyHunks a pos rest (acc ++ [unmangle x]) := by
  simp only [applyHunks, List.head?_cons, List.tail_cons]
  rw [if_neg (by simp), if_neg (by simp)]
  simp

theorem applyHunks_step_minus {a : List Bytes} {pos : Nat} {x : Bytes} {rest acc : List Bytes} :
    applyHunks a pos (('-' :: x) :: rest) acc = applyHunks a pos rest acc := by
  simp only [applyHunks, List.head?_cons, List.tail_cons]
  rw [if_neg (by simp), if_neg (by simp), if_neg (by simp)]
  simp

theorem applyHunks_step_header {a : List Bytes} {pos : Nat} {i1 i2 j1 j2 : Nat}
    {rest acc : List Bytes} (h : i1 ≤ i2) :
    applyHunks a pos (hunkHeader i1 i2 j1 j2 :: rest) acc =
      applyHunks a i2 rest (acc ++ listSlice a pos i1) := by
  have hhead : (hunkHeader i1 i2 j1 j2).head? = some '@' := by
    rw [hunkHeader]
    rfl
  simp only [applyHunks, hhead, if_pos, parseHunkHeader_hunkHeader]
  rw [show i1 + 1 - 1 = i1 by omega, show i1 + (i2 - i1) = i2 by omega]

/-- Apply consumes an equal block verbatim. -/
theorem applyHunks_space_block {a : List Bytes} :
    ∀ (ls : List Bytes) (pos : Nat) (rest acc : List Bytes),
      applyHunks a pos (ls.map (fun l => ' ' :: l) ++ rest) acc =
        applyHunks a pos rest (acc ++ ls)
  | [], pos, rest, acc => by simp
  | l :: ls, pos, rest, acc => by
    rw [List.map_cons, List.cons_append, applyHunks_step_space,
      applyHunks_space_block ls pos rest (acc ++ [l])]
    simp

/-- Apply drops a deleted block. -/
theorem applyHunks_minus_block {a : List Bytes} :
    ∀ (ls : List Bytes) (pos : Nat) (rest acc : List Bytes),
      applyHunks a pos (ls.map (fun l => '-' :: fixNl l) ++ rest) acc =
        applyHunks a pos rest acc
  | [], pos, rest, acc => by simp
  | l :: ls, pos, rest, acc => by
    rw [List.map_cons, List.cons_append, applyHunks_step_minus,
      applyHunks_minus_block ls pos rest acc]

/-- Apply restores an inserted block, undoing the newline fixup. -/
theorem applyHunks_plus_block {a : List Bytes} :
    ∀ (ls : List Bytes) (pos : Nat) (rest acc : List Bytes),
      (∀ l ∈ ls, ¬ noNlMarker.isSuffixOf l = true) →
      applyHunks a pos (ls.map (fun l => '+' :: fixNl l) ++ rest) acc =
        applyHunks a pos rest (acc ++ ls)
  | [], pos, rest, acc, _ => by simp
  | l :: ls, pos, rest, acc, hm => by
    rw [List.map_cons, List.cons_append, applyHunks_step_plus,
      unmangle_fixNl (hm l (List.mem_cons_self l ls)),
      applyHunks_plus_block ls pos rest (acc ++ [l])
        (fun l2 h2 => hm l2 (List.mem_cons_of_mem l h2))]
    simp

/-- Apply turns the content lines of one group into the new-side slice. -/
theorem applyHunks_group_content {a b : List Bytes}
    (hb : ∀ l ∈ b, ¬ noNlMarker.isSuffixOf l = true) :
    ∀ (g : List Opcode) (si sj ei ej : Nat), ChainOps a b si sj ei ej g → ej ≤ b.length →
      ∀ (pos : Nat) (rest acc : List Bytes),
        applyHunks a pos ((g.map (formatOpcode a b)).flatten ++ rest) acc =
          applyHunks a pos rest (acc ++ listSlice b sj ej)
  | [], si, sj, ei, ej, hch, hej, pos, rest, acc => by
    obtain ⟨rfl, rfl⟩ := hch
    simp [listSlice]
  | c :: g, si, sj, ei, ej, hch, hej, pos, rest, acc => by
    obtain ⟨m1, m2, m3, m4, m5, m6, m7, m8⟩ := hch
    have hj2 : c.j2 ≤ ej := (ChainOps_le g c.i2 c.j2 ei ej m8).2
    have hrec := applyHunks_group_content hb g c.i2 c.j2 ei ej m8 hej
    have hslice : listSlice b sj c.j2 ++ listSlice b c.j2 ej = listSlice b sj ej :=
      (listSlice_split (by omega) hj2).symm
    rw [List.map_cons, List.flatten_cons, List.append_assoc]
    match htag : c.tag with
    | Tag.equal =>
      rw [formatOpcode, htag]
      obtain ⟨hw, hsl⟩ := m5 htag
      have heq : listSlice a c.i1 c.i2 = listSlice b c.j1 c.j2 := by
        have := listSlice_eq_of_sliceEq hsl
        rw [show c.i1 + (c.i2 - c.i1) = c.i2 by omega,
          show c.j1 + (c.i2 - c.i1) = c.j2 by omega] at this
        exact this
      rw [applyHunks_space_block, hrec, heq]
      rw [m2, List.append_assoc, hslice]
    | Tag.delete =>
      rw [formatOpcode, htag]
      have hjj : c.j1 = c.j2 := m6 htag
      have hsj : sj = c.j2 := by rw [← m2, hjj]
      rw [applyHunks_minus_block, hrec, hsj]
    | Tag.insert =>
      rw [formatOpcode, htag]
      have hmem : ∀ l ∈ listSlice b c.j1 c.j2, ¬ noNlMarker.isSuffixOf l = true :=
        fun l hl => hb l (mem_of_mem_listSlice hl)
      rw [applyHunks_plus_block _ _ _ _ hmem, hrec]
      rw [m2, List.append_assoc, hslice]
    | Tag.replace =>
      rw [formatOpcode, htag]
      have hmem : ∀ l ∈ listSlice b c.j1 c.j2, ¬ noNlMarker.isSuffixOf l = true :=
        fun l hl => hb l (mem_of_mem_listSlice hl)
      rw [List.append_assoc, applyHunks_minus_block, applyHunks_plus_block _ _ _ _ hmem, hrec]
      rw [m2, List.append_assoc, hslice]

theorem chain_getLast {a b : List Bytes} :
    ∀ (g : List Opcode) (c : Opcode) (si sj ei ej : Nat),
      ChainOps a b si sj ei ej (c :: g) →
      ∃ cl, (c :: g).getLast? = some cl ∧ cl.i2 = ei ∧ cl.j2 = ej
  | [], c, si, sj, ei, ej, hch => by
    obtain ⟨m1, m2, m3, m4, m5, m6, m7, he1, he2⟩ := hch
    exact ⟨c, rfl, he1, he2⟩
  | c2 :: g, c, si, sj, ei, ej, hch => by
    obtain ⟨m1, m2, m3, m4, m5, m6, m7, m8⟩ := hch
    obtain ⟨cl, h1, h2, h3⟩ := chain_getLast g c2 c.i2 c.j2 ei ej m8
    exact ⟨cl, by rw [List.getLast?_cons_cons, h1], h2, h3⟩

theorem groupBounds_of_chain {a b : List Bytes} {g : List Opcode} {c : Opcode}
    {si sj ei ej : Nat} (hch : ChainOps a b si sj ei ej (c :: g)) :
    groupBounds (c :: g) = (si, ei, sj, ej) := by
  obtain ⟨cl, h1, h2, h3⟩ := chain_getLast g c si sj ei ej hch
  rw [groupBounds, List.head?_cons, h1]
  obtain ⟨m1, m2, _, _, _, _, _, _⟩ := hch
  show (c.i1, cl.i2, c.j1, cl.j2) = (si, ei, sj, ej)
  rw [m1, m2, h2, h3]

theorem groupsWF_le {a b : List Bytes} :
    ∀ (gs : List (List Opcode)) (pi pj : Nat), GroupsWF a b pi pj gs →
      pi ≤ a.length ∧ pj ≤ b.length
  | [], pi, pj, h => ⟨h.2.1, h.2.2.1⟩
  | g :: gs, pi, pj, h => by
    obtain ⟨si, sj, ei, ej, hne, hp1, hp2, hp3, hgap, hch, hrest⟩ := h
    have h1 := groupsWF_le gs ei ej hrest
    have h2 := ChainOps_le g si sj ei ej hch
    omega

theorem drop_eq_listSlice {l : List Bytes} {x : Nat} (_h : x ≤ l.length) :
    l.drop x = listSlice l x l.length := by
  rw [listSlice]
  rw [show (l.drop x).take (l.length - x) = (l.drop x).take (l.drop x).length by
    rw [List.length_drop]]
  rw [List.take_length]

/-- Applying the formatted hunk stream of a well-formed group list copies
the new sequence from `pj` on. -/
theorem applyHunks_groups {a b : List Bytes}
    (hb : ∀ l ∈ b, ¬ noNlMarker.isSuffixOf l = true) :
    ∀ (gs : List (List Opcode)) (pi pj : Nat) (acc : List Bytes),
      GroupsWF a b pi pj gs →
      applyHunks a pi ((gs.map (formatGroup a b)).flatten) acc = some (acc ++ b.drop pj)
  | [], pi, pj, acc, h => by
    obtain ⟨hw, h1, h2, hsl⟩ := h
    rw [List.map_nil, List.flatten_nil, applyHunks]
    rw [drop_eq_of_sliceEq hw hsl h1 h2]
  | g :: gs, pi, pj, acc, h => by
    obtain ⟨si, sj, ei, ej, hne, hp1, hp2, hp3, hgap, hch, hrest⟩ := h
    match g, hne with
    | c :: g2, _ =>
      have hbounds := groupBounds_of_chain hch
      have hlims := groupsWF_le gs ei ej hrest
      have hle := ChainOps_le (c :: g2) si sj ei ej hch
      rw [List.map_cons, List.flatten_cons, formatGroup, hbounds]
      dsimp only
      rw [List.cons_append, applyHunks_step_header (by omega)]
      rw [applyHunks_group_content hb (c :: g2) si sj ei ej hch (by omega)]
      rw [applyHunks_groups hb gs ei ej _ hrest]
      have hgapeq : listSlice a pi si = listSlice b pj sj := by
        have := listSlice_eq_of_sliceEq hgap
        rw [show pi + (si - pi) = si by omega, show pj + (si - pi) = sj by omega] at this
        exact this
      rw [hgapeq]
      rw [drop_eq_listSlice (by omega : ej ≤ b.length), List.append_assoc, List.append_assoc]
      rw [← listSlice_split (by omega) (by omega), ← listSlice_split (by omega) (by omega)]
      rw [← drop_eq_listSlice (by omega : pj ≤ b.length)]

/-- If the grouped opcodes are empty, the two sequences are equal. -/
theorem groupsWF_nil_eq {a b : List Bytes} (h : GroupsWF a b 0 0 []) : a = b := by
  obtain ⟨hw, h1, h2, hsl⟩ := h
  have h3 := @drop_eq_of_sliceEq a b 0 0 hw hsl (Nat.zero_le _) (Nat.zero_le _)
  simpa using h3

/-- The round-trip: applying the output of `unified_diff` to `a` restores
`b`, provided no line of `b` ends in the no-newline marker text. -/
theorem applyUnified_unified_diff (a b : List Bytes) (fromfile tofile : Bytes) (n : Nat)
    (hb : ∀ l ∈ b, ¬ noNlMarker.isSuffixOf l = true) :
    applyUnified a (unified_diff a b fromfile tofile n) = some b := by
  have hwf := get_grouped_opcodes_wf a b n
  rw [unified_diff]
  match hg : get_grouped_opcodes a b n with
  | [] =>
    rw [hg] at hwf
    rw [applyUnified, groupsWF_nil_eq hwf]
  | g :: gs =>
    rw [hg] at hwf
    rw [applyUnified]
    have := applyHunks_groups hb (g :: gs) 0 0 [] hwf
    simpa using this

/-!
The self-diff argument: on `a` against itself, the first maximal chain the
dynamic program meets lies on the diagonal, so the best match is diagonal
and the extension loops grow it to the whole sequence.  `selfK i j` is the
chain length the program computes at cell `(i, j)`.
-/

def selfK (a : List Bytes) : Nat → Nat → Nat
  | 0, j => if j ∈ jsOf a a 0 a.length 0 then 1 else 0
  | i + 1, 0 => if 0 ∈ jsOf a a 0 a.length (i + 1) then 1 else 0
  | i + 1, j + 1 => if j + 1 ∈ jsOf a a 0 a.length (i + 1) then selfK a i j + 1 else 0

theorem mem_jsOf_self {a : List Bytes} {i j : Nat} :
    j ∈ jsOf a a 0 a.length i ↔ ∃ x, a.get? i = some x ∧ a.get? j = some x ∧
      ¬(200 ≤ a.length ∧ a.length / 100 + 1 < (posIn a x).length) := by
  rw [jsOf]
  rcases hx : a.get? i with _ | x
  · simp
  · simp only [List.mem_filter, Bool.and_eq_true, decide_eq_true_eq]
    constructor
    · intro h
      obtain ⟨hmem, _, _⟩ := h
      rw [b2j] at hmem
      by_cases hc : 200 ≤ a.length ∧ a.length / 100 + 1 < (posIn a x).length
      · rw [if_pos hc] at hmem
        simp at hmem
      · rw [if_neg hc] at hmem
        rw [posIn, List.mem_filter, beq_iff_eq] at hmem
        exact ⟨x, rfl, hmem.2, hc⟩
    · rintro ⟨x2, hx2, hj, hsurv⟩
      have hxx : x = x2 := Option.some.inj hx2
      subst hxx
      have hjlen : j < a.length := by
        by_contra hc
        rw [List.get?_eq_none.mpr (by omega)] at hj
        exact Option.noConfusion hj
      refine ⟨?_, by omega, hjlen⟩
      rw [b2j, if_neg hsurv, posIn, List.mem_filter, beq_iff_eq]
      exact ⟨List.mem_range.mpr hjlen, hj⟩

theorem jsOf_self_swap {a : List Bytes} {i j : Nat} (h : j ∈ jsOf a a 0 a.length i) :
    i ∈ jsOf a a 0 a.length j := by
  obtain ⟨x, h1, h2, h3⟩ := mem_jsOf_self.mp h
  exact mem_jsOf_self.mpr ⟨x, h2, h1, h3⟩

theorem mem_jsOf_self_diag {a : List Bytes} {i j : Nat}
    (h : j ∈ jsOf a a 0 a.length i) : i ∈ jsOf a a 0 a.length i := by
  obtain ⟨x, h1, _, h3⟩ := mem_jsOf_self.mp h
  exact mem_jsOf_self.mpr ⟨x, h1, h1, h3⟩

theorem selfK_symm (a : List Bytes) : ∀ i j, selfK a i j = selfK a j i := by
  intro i
  induction i with
  | zero =>
    intro j
    match j with
    | 0 => rfl
    | j + 1 =>
      rw [selfK, selfK]
      by_cases hm : j + 1 ∈ jsOf a a 0 a.length 0
      · rw [if_pos hm, if_pos (jsOf_self_swap hm)]
      · rw [if_neg hm, if_neg (fun hc => hm (jsOf_self_swap hc))]
  | succ i ih =>
    intro j
    match j with
    | 0 =>
      rw [selfK, selfK]
      by_cases hm : (0 : Nat) ∈ jsOf a a 0 a.length (i + 1)
      · rw [if_pos hm, if_pos (jsOf_self_swap hm)]
      · rw [if_neg hm, if_neg (fun hc => hm (jsOf_self_swap hc))]
    | j + 1 =>
      rw [selfK, selfK]
      by_cases hm : j + 1 ∈ jsOf a a 0 a.length (i + 1)
      · rw [if_pos hm, if_pos (jsOf_self_swap hm), ih j]
      · rw [if_neg hm, if_neg (fun hc => hm (jsOf_self_swap hc))]

theorem selfK_le_diag (a : List Bytes) : ∀ i j, i ≤ j → selfK a i j ≤ selfK a i i := by
  intro i
  induction i with
  | zero =>
    intro j _
    match j with
    | 0 => exact Nat.le_refl _
    | j + 1 =>
      rw [selfK, selfK]
      by_cases hm : j + 1 ∈ jsOf a a 0 a.length 0
      · rw [if_pos hm, if_pos (mem_jsOf_self_diag hm)]
      · rw [if_neg hm]
        omega
  | succ i ih =>
    intro j hij
    match j, hij with
    | j + 1, hij =>
      rw [selfK, selfK]
      by_cases hm : j + 1 ∈ jsOf a a 0 a.length (i + 1)
      · rw [if_pos hm, if_pos (mem_jsOf_self_diag hm)]
        have := ih j (by omega)
        omega
      · rw [if_neg hm]
        omega

theorem jsOf_sorted (a b : List Bytes) (blo bhi i : Nat) :
    List.Pairwise (· < ·) (jsOf a b blo bhi i) := by
  rw [jsOf]
  rcases a.get? i with _ | x
  · exact List.Pairwise.nil
  · apply List.Pairwise.filter
    rw [b2j]
    by_cases hc : 200 ≤ b.length ∧ b.length / 100 + 1 < (posIn b x).length
    · rw [if_pos hc]
      exact List.Pairwise.nil
    · rw [if_neg hc]
      exact (List.pairwise_lt_range b.length).filter _

/-- The map built by a row pass: the processed cells get their DP value,
everything else keeps the initial value. -/
theorem dpRowGo_map {i : Nat} {old : Nat → Nat} :
    ∀ (js : List Nat) (cur : Nat → Nat) (best : FMatch) (x : Nat),
      (dpRowGo i old js cur best).1 x = if x ∈ js then dpCell old x else cur x
  | [], cur, best, x => by simp [dpRowGo]
  | j :: js, cur, best, x => by
    rw [dpRowGo]
    rw [dpRowGo_map js _ _ x]
    by_cases hx : x ∈ js
    · rw [if_pos hx, if_pos (List.mem_cons_of_mem j hx)]
    · rw [if_neg hx]
      by_cases hxj : x = j
      · subst hxj
        rw [if_pos rfl, if_pos (List.mem_cons_self x js)]
      · rw [if_neg hxj, if_neg (by simp [hxj, hx])]

/-- On a self-comparison, the first maximal cell the row pass meets is
diagonal, so the best match stays diagonal. -/
theorem dpRowGo_diag {a : List Bytes} {i : Nat} {old : Nat → Nat}
    (hcell : ∀ j ∈ jsOf a a 0 a.length i, dpCell old j = selfK a i j) :
    ∀ (js pre : List Nat) (cur : Nat → Nat) (best : FMatch),
      jsOf a a 0 a.length i = pre ++ js →
      List.Pairwise (· < ·) js →
      (∀ j ∈ pre, selfK a i j ≤ best.size) →
      (∀ r j, r < i → selfK a r j ≤ best.size) →
      best.i = best.j →
      (i ∈ js ∨ selfK a i i ≤ best.size) →
      (dpRowGo i old js cur best).2.i = (dpRowGo i old js cur best).2.j ∧
        best.size ≤ (dpRowGo i old js cur best).2.size ∧
        (∀ r j, r < i → selfK a r j ≤ (dpRowGo i old js cur best).2.size) ∧
        (∀ j ∈ jsOf a a 0 a.length i, selfK a i j ≤ (dpRowGo i old js cur best).2.size)
  | [], pre, cur, best, hsplit, hsort, hpre, hrows, hdiag, hi => by
    rw [dpRowGo]
    refine ⟨hdiag, Nat.le_refl _, hrows, ?_⟩
    intro j hj
    rw [hsplit] at hj
    simp at hj
    exact hpre j hj
  | j :: js, pre, cur, best, hsplit, hsort, hpre, hrows, hdiag, hi => by
    rw [dpRowGo]
    have hjmem : j ∈ jsOf a a 0 a.length i := by
      rw [hsplit]
      simp
    have hk : dpCell old j = selfK a i j := hcell j hjmem
    have hsplit2 : jsOf a a 0 a.length i = (pre ++ [j]) ++ js := by
      rw [hsplit, List.append_assoc, List.singleton_append]
    rcases Nat.lt_trichotomy j i with hji | hji | hji
    · -- below the diagonal: dominated by an earlier row
      have hbound : selfK a i j ≤ best.size := by
        have h1 : selfK a i j = selfK a j i := selfK_symm a i j
        have h2 : selfK a j i ≤ selfK a j j := selfK_le_diag a j i (by omega)
        have h3 : selfK a j j ≤ best.size := hrows j j hji
        omega
      rw [if_neg (by omega : ¬best.size < dpCell old j)]
      apply dpRowGo_diag hcell js (pre ++ [j]) _ best hsplit2 hsort.tail _ hrows hdiag
      · rcases hi with hi | hi
        · rcases List.mem_cons.mp hi with hii | hii
          · omega
          · exact Or.inl hii
        · exact Or.inr hi
      · intro j2 hj2
        rcases List.mem_append.mp hj2 with h2 | h2
        · exact hpre j2 h2
        · simp at h2
          subst h2
          omega
    · -- the diagonal cell itself
      subst hji
      by_cases hup : best.size < dpCell old j
      · rw [if_pos hup]
        have hrec := dpRowGo_diag hcell js (pre ++ [j])
          (fun x => if x = j then dpCell old j else cur x)
          ⟨j + 1 - dpCell old j, j + 1 - dpCell old j, dpCell old j⟩ hsplit2 hsort.tail
          (fun j2 hj2 => by
            show selfK a j j2 ≤ dpCell old j
            rcases List.mem_append.mp hj2 with h2 | h2
            · have := hpre j2 h2
              omega
            · simp at h2
              subst h2
              omega)
          (fun r j2 hr => by
            show selfK a r j2 ≤ dpCell old j
            have := hrows r j2 hr
            omega)
          rfl
          (Or.inr (by
            show selfK a j j ≤ dpCell old j
            omega))
        obtain ⟨r1, r2, r3, r4⟩ := hrec
        refine ⟨r1, ?_, r3, r4⟩
        have hone : (FMatch.mk (j + 1 - dpCell old j) (j + 1 - dpCell old j)
            (dpCell old j)).size = dpCell old j := rfl
        omega
      · rw [if_neg hup]
        apply dpRowGo_diag hcell js (pre ++ [j]) _ best hsplit2 hsort.tail _ hrows hdiag
        · exact Or.inr (by omega)
        · intro j2 hj2
          rcases List.mem_append.mp hj2 with h2 | h2
          · exact hpre j2 h2
          · simp at h2
            subst h2
            omega
    · -- above the diagonal: dominated by the diagonal cell of this row
      have hii : selfK a i i ≤ best.size := by
        rcases hi with hi | hi
        · rcases List.mem_cons.mp hi with hii | hii
          · omega
          · have hlt := (List.pairwise_cons.mp hsort).1 i hii
            omega
        · exact hi
      have hbound : selfK a i j ≤ best.size := by
        have := selfK_le_diag a i j (by omega)
        omega
      rw [if_neg (by omega : ¬best.size < dpCell old j)]
      apply dpRowGo_diag hcell js (pre ++ [j]) _ best hsplit2 hsort.tail _ hrows hdiag
      · rcases hi with hi | hi
        · rcases List.mem_cons.mp hi with hii2 | hii2
          · omega
          · exact Or.inl hii2
        · exact Or.inr hi
      · intro j2 hj2
        rcases List.mem_append.mp hj2 with h2 | h2
        · exact hpre j2 h2
        · simp at h2
          subst h2
          omega

/-- The previous-row value feeding cell `(i, j)`. -/
def selfPrev (a : List Bytes) (i j : Nat) : Nat :=
  match i with
  | 0 => 0
  | i + 1 => selfK a i j

theorem dpCell_selfPrev {a : List Bytes} {i j : Nat} {old : Nat → Nat}
    (hold : ∀ x, old x = selfPrev a i x) (hj : j ∈ jsOf a a 0 a.length i) :
    dpCell old j = selfK a i j := by
  match i, j with
  | 0, 0 => rw [dpCell, selfK, if_pos hj]
  | 0, j + 1 =>
    rw [dpCell, hold j, selfK, if_pos hj]
    rfl
  | i + 1, 0 => rw [dpCell, selfK, if_pos hj]
  | i + 1, j + 1 =>
    rw [dpCell, hold j, selfK, if_pos hj]
    rfl

/-- Running all rows of the self-comparison keeps the best match diagonal. -/
theorem dpRows_diag {a : List Bytes} :
    ∀ (cnt i : Nat) (m : Nat → Nat) (best : FMatch),
      (∀ x, m x = selfPrev a i x) →
      (∀ r j, r < i → selfK a r j ≤ best.size) →
      best.i = best.j →
      (dpRows a a 0 a.length (List.range' i cnt) m best).i =
        (dpRows a a 0 a.length (List.range' i cnt) m best).j
  | 0, i, m, best, _, _, hdiag => hdiag
  | cnt + 1, i, m, best, hm, hrows, hdiag => by
    rw [List.range'_succ, dpRows]
    have hcell : ∀ j ∈ jsOf a a 0 a.length i, dpCell m j = selfK a i j :=
      fun j hj => dpCell_selfPrev hm hj
    have hrow := dpRowGo_diag hcell (jsOf a a 0 a.length i) [] (fun _ => 0) best
      (by simp) (jsOf_sorted a a 0 a.length i) (by simp) hrows hdiag
      (by
        by_cases hc : i ∈ jsOf a a 0 a.length i
        · exact Or.inl hc
        · refine Or.inr ?_
          have hz : selfK a i i = 0 := by
            match i with
            | 0 => rw [selfK, if_neg hc]
            | i + 1 => rw [selfK, if_neg hc]
          omega)
    obtain ⟨r1, r2, r3, r4⟩ := hrow
    apply dpRows_diag cnt (i + 1) _ _ _ _ r1
    · intro x
      rw [dpRowGo_map]
      show _ = selfK a i x
      by_cases hx : x ∈ jsOf a a 0 a.length i
      · rw [if_pos hx]
        exact hcell x hx
      · rw [if_neg hx]
        have hz : selfK a i x = 0 := by
          match i, x with
          | 0, x => rw [selfK, if_neg hx]
          | i + 1, 0 => rw [selfK, if_neg hx]
          | i + 1, x + 1 => rw [selfK, if_neg hx]
        omega
    · intro r j hr
      by_cases hri : r < i
      · exact r3 r j hri
      · have hreq : r = i := by omega
        subst hreq
        by_cases hj : j ∈ jsOf a a 0 a.length r
        · exact r4 j hj
        · have hz : selfK a r j = 0 := by
            match r, j with
            | 0, j => rw [selfK, if_neg hj]
            | r + 1, 0 => rw [selfK, if_neg hj]
            | r + 1, j + 1 => rw [selfK, if_neg hj]
          omega

/-- Backward extension of a diagonal match on a self-comparison reaches
the origin. -/
theorem extBack_self (a : List Bytes) :
    ∀ (d size : Nat), d + size ≤ a.length →
      extBack a a 0 0 d d size = ⟨0, 0, size + d⟩
  | 0, size, _ => by
    rw [extBack]
    simp
  | d + 1, size, hle => by
    rw [extBack]
    have hget : a.get? d = some (a.get ⟨d, by omega⟩) := List.get?_eq_get (by omega)
    have hsome : (a.get? d).isSome = true := by rw [hget]; rfl
    rw [if_pos ⟨by omega, by omega, hsome, by rw [Nat.add_sub_cancel]⟩]
    rw [Nat.add_sub_cancel]
    rw [extBack_self a d (size + 1) (by omega)]
    rw [show size + 1 + d = size + (d + 1) by omega]

/-- Forward extension on a self-comparison reaches the end. -/
theorem extFwd_self (a : List Bytes) :
    ∀ (fuel size : Nat), size ≤ a.length → a.length - size ≤ fuel →
      extFwdGo a a a.length a.length 0 0 fuel size = a.length
  | 0, size, hle, hfuel => by
    rw [extFwdGo]
    omega
  | fuel + 1, size, hle, hfuel => by
    rw [extFwdGo]
    by_cases hc : size < a.length
    · have hget : a.get? (0 + size) = some (a.get ⟨0 + size, by omega⟩) :=
        List.get?_eq_get (by omega)
      have hsome : (a.get? (0 + size)).isSome = true := by rw [hget]; rfl
      rw [if_pos ⟨by omega, by omega, hsome, rfl⟩]
      exact extFwd_self a fuel (size + 1) (by omega) (by omega)
    · have hneg : ¬(0 + size < a.length ∧ 0 + size < a.length ∧
          (a.get? (0 + size)).isSome = true ∧ a.get? (0 + size) = a.get? (0 + size)) := by
        intro hcond
        obtain ⟨h1, -⟩ := hcond
        exact hc (by omega)
      rw [if_neg hneg]
      omega

/-- On a self-comparison the longest match is the whole sequence. -/
theorem find_longest_match_self (a : List Bytes) :
    find_longest_match a a 0 a.length 0 a.length = ⟨0, 0, a.length⟩ := by
  rw [find_longest_match]
  have hdiag := dpRows_diag (a := a) (a.length - 0) 0 (fun _ => 0) ⟨0, 0, 0⟩
    (fun x => rfl) (fun r j hr => by omega) rfl
  have hbest : BestInv a a 0 a.length 0 a.length
      (dpRows a a 0 a.length (List.range' 0 (a.length - 0)) (fun _ => 0) ⟨0, 0, 0⟩) := by
    apply dpRows_inv (a.length - 0) 0 _ _ (Nat.le_refl 0) (fun h => by omega)
      (PrevRow_zero a a 0 0 a.length 0)
    exact BestInv_mk (Nat.le_refl 0) (Nat.le_refl 0) (fun _ => ⟨rfl, rfl⟩) (fun h => absurd rfl h)
  set best := dpRows a a 0 a.length (List.range' 0 (a.length - 0)) (fun _ => 0) ⟨0, 0, 0⟩
    with hbdef
  obtain ⟨hb1, hb2, hbz, hb3⟩ := hbest
  have hext : extBack a a 0 0 best.i best.j best.size = ⟨0, 0, best.size + best.i⟩ := by
    rw [← hdiag]
    by_cases hz : best.size = 0
    · obtain ⟨hi0, -⟩ := hbz hz
      rw [hz, hi0]
      rw [extBack_self a 0 0 (by omega)]
    · obtain ⟨hA, hB, -⟩ := hb3 hz
      rw [extBack_self a best.i best.size (by omega)]
  rw [hext]
  have hsz : best.size + best.i ≤ a.length := by
    by_cases hz : best.size = 0
    · obtain ⟨hi0, -⟩ := hbz hz
      omega
    · obtain ⟨hA, hB, -⟩ := hb3 hz
      omega
  dsimp only
  rw [extFwd_self a a.length (best.size + best.i) hsz (by omega)]

/-- unified_diff of a sequence against itself yields no lines. -/
theorem unified_diff_self (a : List Bytes) (fromfile tofile : Bytes) (n : Nat) :
    unified_diff a a fromfile tofile n = [] := by
  have hblocks : matchingBlocksGo a a (a.length + 1) 0 a.length 0 a.length =
      if a.length = 0 then [] else [(0, 0, a.length)] := by
    rw [matchingBlocksGo]
    rw [find_longest_match_self a]
    dsimp only
    by_cases hz : a.length = 0
    · rw [if_pos hz, if_pos hz]
    · rw [if_neg hz, if_neg hz]
      rw [if_neg (by omega : ¬(0 < 0 ∧ 0 < 0))]
      rw [if_neg (by omega : ¬(0 + a.length < a.length ∧ 0 + a.length < a.length))]
      rfl
  have hmerged : get_matching_blocks a a =
      if a.length = 0 then [(a.length, a.length, 0)]
      else [(0, 0, a.length), (a.length, a.length, 0)] := by
    rw [get_matching_blocks, hblocks]
    by_cases hz : a.length = 0
    · rw [if_pos hz, if_pos hz]
      rfl
    · rw [if_neg hz, if_neg hz]
      rw [mergeBlocks, if_pos (by omega : 0 + 0 = 0 ∧ 0 + 0 = 0)]
      rw [mergeBlocks, if_neg (by omega : ¬0 + a.length = 0)]
      simp
  have hcodes : get_opcodes a a =
      if a.length = 0 then [] else [Opcode.mk Tag.equal 0 a.length 0 a.length] := by
    rw [get_opcodes, hmerged]
    by_cases hz : a.length = 0
    · rw [if_pos hz, if_pos hz]
      rw [opcodesGo]
      rw [if_neg (by omega), if_neg (by omega), if_neg (by omega), if_pos rfl]
      simp [opcodesGo]
    · rw [if_neg hz, if_neg hz]
      rw [opcodesGo]
      rw [if_neg (by omega), if_neg (by omega), if_neg (by omega), if_neg hz]
      rw [opcodesGo]
      rw [if_neg (by omega), if_neg (by omega), if_neg (by omega), if_pos rfl]
      simp [opcodesGo]
  have hgroups : get_grouped_opcodes a a n = [] := by
    rw [get_grouped_opcodes, hcodes]
    by_cases hz : a.length = 0
    · rw [if_pos hz, if_pos rfl]
      exact groupSplit_fabricated n
    · rw [if_neg hz, if_neg (by simp)]
      rw [fixupHead, if_pos rfl]
      simp only [Nat.sub_zero]
      rw [fixupLast, if_pos rfl]
      set m := max 0 (a.length - n) with hmdef
      have hm0 : m = a.length - n := by omega
      rw [groupSplitGo]
      rw [if_neg (by
        simp only
        intro hcc
        omega)]
      rw [groupSplitGo, List.nil_append, groupFlush, if_pos rfl]
  rw [unified_diff]
  rw [hgroups]

/-! Helpers for the email side: monadic reduction, line-loop lemmas. -/

theorem exceptBindOk {α β : Type} (a : α) (f : α → Except PyErr β) :
    (Except.ok a >>= f) = f a := rfl

theorem exceptBindErr {α β : Type} (e : PyErr) (f : α → Except PyErr β) :
    ((Except.error e : Except PyErr α) >>= f) = Except.error e := rfl

/-- The newline fixup always leaves a trailing newline. -/
theorem fixNl_getLast (l : Bytes) : (fixNl l).getLast? = some '\n' := by
  rw [fixNl]
  by_cases h : l.getLast? = some '\n'
  · rw [if_pos h]
    exact h
  · rw [if_neg h]
    rw [List.getLast?_append]
    rfl

/-- A cons with a nonempty tail keeps the tail's last element. -/
theorem getLast_cons_of_ne_nil {c : Char} {l : Bytes} (h : l ≠ []) :
    (c :: l).getLast? = l.getLast? := by
  rcases l with _ | ⟨x, xs⟩
  · exact absurd rfl h
  · rw [List.getLast?_cons_cons]

/-- `fixNl` never returns the empty string. -/
theorem fixNl_ne_nil (l : Bytes) : fixNl l ≠ [] := by
  rw [fixNl]
  by_cases h : l.getLast? = some '\n'
  · rw [if_pos h]
    intro hc
    rw [hc] at h
    simp [List.getLast?] at h
  · rw [if_neg h]
    simp [noNlMarker, bs]

/-- The diff loop with no terminator line: everything is accumulated. -/
theorem splitDiff_noMarker : ∀ (ls : List Bytes) (acc : Bytes),
    (∀ l ∈ ls, l ≠ bs "-- \n") → splitDiff ls acc = (acc ++ ls.flatten, [])
  | [], acc, _ => by simp [splitDiff]
  | l :: ls, acc, h => by
    rw [splitDiff, if_neg (h l (List.mem_cons_self l ls))]
    rw [splitDiff_noMarker ls (acc ++ l) (fun x hx => h x (List.mem_cons_of_mem l hx))]
    simp

/-- The diff loop with a terminator and clean preceding lines. -/
theorem splitDiff_clean : ∀ (ls : List Bytes) (acc : Bytes) (rest : List Bytes),
    (∀ l ∈ ls, l ≠ bs "-- \n") →
    splitDiff (ls ++ bs "-- \n" :: rest) acc = (acc ++ ls.flatten, rest)
  | [], acc, rest, _ => by
    rw [List.nil_append, splitDiff, if_pos rfl]
    simp
  | l :: ls, acc, rest, h => by
    rw [List.cons_append, splitDiff, if_neg (h l (List.mem_cons_self l ls))]
    rw [splitDiff_clean ls (acc ++ l) rest (fun x hx => h x (List.mem_cons_of_mem l hx))]
    simp

/-- The first body loop, after the first line, with no `---` terminator:
every line is appended to the message. -/
theorem splitBody1_noMarker : ∀ (ls : List Bytes) (author msg : Bytes),
    (∀ l ∈ ls, l ≠ bs "---\n") →
    splitBody1 ls author msg false = (author, msg ++ ls.flatten, [])
  | [], author, msg, _ => by simp [splitBody1]
  | l :: ls, author, msg, h => by
    rw [splitBody1, if_neg (h l (List.mem_cons_self l ls))]
    rw [splitBody1_noMarker ls author (msg ++ l) (fun x hx => h x (List.mem_cons_of_mem l hx))]
    simp

/-- The first body loop, after the first line, with a `---` terminator and
clean preceding lines. -/
theorem splitBody1_clean : ∀ (ls : List Bytes) (author msg : Bytes) (rest : List Bytes),
    (∀ l ∈ ls, l ≠ bs "---\n") →
    splitBody1 (ls ++ bs "---\n" :: rest) author msg false = (author, msg ++ ls.flatten, rest)
  | [], author, msg, rest, _ => by
    rw [List.nil_append, splitBody1, if_pos rfl]
    simp
  | l :: ls, author, msg, rest, h => by
    rw [List.cons_append, splitBody1, if_neg (h l (List.mem_cons_self l ls))]
    rw [splitBody1_clean ls author (msg ++ l) rest (fun x hx => h x (List.mem_cons_of_mem l hx))]
    simp

/-- `splitlines()` of a nonempty byte string has at least one line. -/
theorem splitlinesPy_ne_nil (m : Bytes) (h : m ≠ []) : splitlinesPy m ≠ [] := by
  match m with
  | [] => exact absurd rfl h
  | c :: rest =>
    by_cases h1 : c = '\n'
    · subst h1
      rw [splitlinesPy]
      simp
    · by_cases h2 : c = '\r'
      · subst h2
        match rest with
        | [] =>
          show ([] : Bytes) :: splitlinesPy [] ≠ []
          simp
        | '\n' :: rest2 =>
          show ([] : Bytes) :: splitlinesPy rest2 ≠ []
          simp
        | c2 :: rest2 =>
          by_cases h3 : c2 = '\n'
          · subst h3
            show ([] : Bytes) :: splitlinesPy rest2 ≠ []
            simp
          · rw [splitlinesPy]
            · simp
            · intro r he
              exact h3 (List.head_eq_of_cons_eq he)
      · rw [splitlinesPy]
        · rcases splitlinesPy rest with _ | ⟨l, ls⟩ <;> simp
        · intro r
          exact (h1 r).elim
        · intro r he
          exact (h2 he).elim
        · intro r
          exact (h2 r).elim

/-- `find?` over a contiguous range returns the least satisfying index. -/
theorem find_range_least : ∀ (cnt s : Nat) (p : Nat → Bool) (k : Nat),
    s ≤ k → k < s + cnt → p k = true → (∀ i, s ≤ i → i < k → p i = false) →
    (List.range' s cnt).find? p = some k
  | 0, s, p, k, h1, h2, _, _ => absurd h2 (by omega)
  | cnt + 1, s, p, k, h1, h2, hp, hlt => by
    rw [List.range'_succ]
    by_cases hks : k = s
    · subst hks
      exact List.find?_cons_of_pos _ hp
    · have hps : p s = false := hlt s (Nat.le_refl s) (by omega)
      rw [List.find?_cons_of_neg _ (by rw [hps]; exact Bool.false_ne_true)]
      exact find_range_least cnt (s + 1) p k (by omega) (by omega) hp
        (fun i hi1 hi2 => hlt i (by omega) hi2)

/-- `str.find(pat, start)` finds the least occurrence at or after `start`. -/
theorem findSubFrom_eq_some {s pat : Bytes} {start k : Nat}
    (h1 : start ≤ k) (h2 : k ≤ s.length) (hp : pat.isPrefixOf (s.drop k) = true)
    (hleast : ∀ i, start ≤ i → i < k → pat.isPrefixOf (s.drop i) = false) :
    findSubFrom s pat start = some k := by
  rw [findSubFrom, List.range_eq_range']
  apply find_range_least (s.length + 1) 0 _ k (Nat.zero_le k) (by omega)
  · simp [h1, hp]
  · intro i hi0 hik
    by_cases hsi : start ≤ i
    · simp [hsi, hleast i hsi hik]
    · simp [hsi]

/-- `str.find(pat, start)` returns -1 (None here) when there is no
occurrence. -/
theorem findSubFrom_eq_none {s pat : Bytes} {start : Nat}
    (h : ∀ i, start ≤ i → i ≤ s.length → pat.isPrefixOf (s.drop i) = false) :
    findSubFrom s pat start = none := by
  rw [findSubFrom]
  apply List.find?_eq_none.mpr
  intro i hi
  rw [List.mem_range] at hi
  by_cases hsi : start ≤ i
  · simp [hsi, h i hsi (by omega)]
  · simp [hsi]

/-- A proper line (no internal newline) never carries the no-newline
marker as a suffix. -/
theorem properLine_no_marker {l : Bytes} (h : properLine l) :
    noNlMarker.isSuffixOf l = false := by
  by_contra hc
  rw [Bool.not_eq_false, List.isSuffixOf_iff_suffix] at hc
  obtain ⟨pre, hpre⟩ := hc
  have hmlen : 1 < noNlMarker.length := by decide
  have hlen : l.length = pre.length + noNlMarker.length := by
    rw [← hpre]
    simp
  have hget : l.get? pre.length = some '\n' := by
    rw [← hpre, List.get?_append_right (Nat.le_refl pre.length)]
    rw [Nat.sub_self]
    rfl
  exact h pre.length (by omega) hget

/-- Reduction of `git_am_patch_split` through the header stage: with the
`From` and `Subject` headers present and ASCII-clean, the result is built
from the two body loops. -/
theorem git_am_patch_split_eq (m fromV subjV subj' : Bytes)
    (hf : getHeader (parseEmail m) (bs "from") = some fromV)
    (hfa : fromV.all (fun c => decide (c.toNat < 128)) = true)
    (hs : getHeader (parseEmail m) (bs "subject") = some subjV)
    (hsub : subjectOf subjV = Except.ok subj')
    (hsa : subj'.all (fun c => decide (c.toNat < 128)) = true) :
    git_am_patch_split m =
      Except.ok
        (⟨(splitBody1 (iterLines (parseEmail m).payload) fromV
              (subj'.filter (fun c => !(c == '\n')) ++ bs "\n") true).1,
          fromV,
          (splitBody1 (iterLines (parseEmail m).payload) fromV
              (subj'.filter (fun c => !(c == '\n')) ++ bs "\n") true).2.1⟩,
         (splitDiff (splitBody1 (iterLines (parseEmail m).payload) fromV
              (subj'.filter (fun c => !(c == '\n')) ++ bs "\n") true).2.2 []).1,
         match (splitDiff (splitBody1 (iterLines (parseEmail m).payload) fromV
              (subj'.filter (fun c => !(c == '\n')) ++ bs "\n") true).2.2 []).2 with
         | [] => none
         | l :: _ => some (rstripNl l)) := by
  have he1 : encodeAscii fromV = Except.ok fromV := by rw [encodeAscii, if_pos hfa]
  have he2 : encodeAscii subj' = Except.ok subj' := by rw [encodeAscii, if_pos hsa]
  rw [git_am_patch_split, hf, hs]
  simp only [he1, he2, hsub, exceptBindOk]

/-- The subject transformation fails only with ValueError. -/
theorem subjectOf_error {s : Bytes} {e : PyErr} (h : subjectOf s = Except.error e) :
    e = PyErr.valueError := by
  rw [subjectOf] at h
  rcases hfnd : findSub s (bs "[PATCH") with _ | k
  · rw [hfnd] at h
    exact Except.noConfusion h
  · rw [hfnd] at h
    have h2 : (match findSubFrom s (bs "] ") k with
        | none => Except.error PyErr.valueError
        | some close => Except.ok (List.drop (close + 2) s)) = Except.error e := h
    rcases hcl : findSubFrom s (bs "] ") k with _ | close
    · rw [hcl] at h2
      exact (Except.error.inj h2).symm
    · rw [hcl] at h2
      exact Except.noConfusion h2

/-- `git_am_patch_split` never fails with FormatError: its failure modes
are AttributeError, UnicodeEncodeError and ValueError. -/
theorem git_am_patch_split_no_format (m : Bytes) :
    git_am_patch_split m ≠ Except.error PyErr.formatError := by
  rw [git_am_patch_split]
  rcases h1 : getHeader (parseEmail m) (bs "from") with _ | v
  · exact fun hcontra => PyErr.noConfusion (Except.error.inj hcontra)
  · dsimp only [Bind.bind, Except.bind]
    rw [encodeAscii]
    by_cases h2 : v.all (fun c => decide (c.toNat < 128)) = true
    · rw [if_pos h2]
      dsimp only [Bind.bind, Except.bind]
      rcases h3 : getHeader (parseEmail m) (bs "subject") with _ | sv
      · exact fun hcontra => PyErr.noConfusion (Except.error.inj hcontra)
      · dsimp only [Bind.bind, Except.bind]
        rcases h4 : subjectOf sv with e | s2
        · have he := subjectOf_error h4
          subst he
          exact fun hcontra => PyErr.noConfusion (Except.error.inj hcontra)
        · dsimp only [Bind.bind, Except.bind]
          rw [encodeAscii]
          by_cases h5 : s2.all (fun c => decide (c.toNat < 128)) = true
          · rw [if_pos h5]
            exact fun hcontra => Except.noConfusion hcontra
          · rw [if_neg h5]
            exact fun hcontra => PyErr.noConfusion (Except.error.inj hcontra)
    · rw [if_neg h2]
      exact fun hcontra => PyErr.noConfusion (Except.error.inj hcontra)

/-- The concrete header block written by `write_commit_patch` for the
round-trip commit, up to and including the `---` separator. -/
def wcpHeader : Bytes :=
  bs "From 0123456789abcdef Sat Apr 5 12:30:00 2014\nFrom: A <a@example.com>\nDate: Sat, 05 Apr 2014 12:30:00 UTC\nSubject: [PATCH 1/1] Subject line\n\nBody line\n\n\n---\n"

/-- The round-trip commit record. -/
def wcpCommit : CommitR :=
  ⟨bs "A <a@example.com>", bs "A <a@example.com>", bs "Subject line\n\nBody line\n"⟩

/-- `write_commit_patch` output decomposes into the concrete header block,
the diff bytes and the trailer. -/
theorem wcp_split (D : Bytes) :
    write_commit_patch (bs "0123456789abcdef") wcpCommit (bs "Sat Apr 5 12:30:00 2014")
        (bs "Sat, 05 Apr 2014 12:30:00 UTC") D 1 1 (bs "Dulwich 0.9.7") =
      wcpHeader ++ (D ++ bs "-- \nDulwich 0.9.7\n") := by
  rw [write_commit_patch]
  simp only [List.append_assoc]
  rfl

/-- Splitting the full message into lines: the header block is
newline-terminated, so its lines come first. -/
theorem wcp_iterLines (D : Bytes) (hD : D = [] ∨ D.getLast? = some '\n') :
    iterLines (wcpHeader ++ (D ++ bs "-- \nDulwich 0.9.7\n")) =
      iterLines wcpHeader ++ (iterLines D ++ [bs "-- \n", bs "Dulwich 0.9.7\n"]) := by
  rw [iterLines_append wcpHeader _ (by rfl)]
  rcases hD with hD | hD
  · subst hD
    rfl
  · rw [iterLines_append D _ hD]
    rfl

/-- Header parsing of the concrete header block, with any remaining lines. -/
theorem wcp_parseGo (t : List Bytes) :
    parseEmailGo true (iterLines wcpHeader ++ t) =
      ([(bs "from", bs "A <a@example.com>"),
        (bs "date", bs "Sat, 05 Apr 2014 12:30:00 UTC"),
        (bs "subject", bs "[PATCH 1/1] Subject line")],
       bs "Body line\n" :: bs "\n" :: bs "\n" :: bs "---\n" :: t) := rfl

/-- Parsing the full patch mail: the three headers and the raw body. -/
theorem wcp_parseEmail (D : Bytes) (hD : D = [] ∨ D.getLast? = some '\n') :
    parseEmail (wcpHeader ++ (D ++ bs "-- \nDulwich 0.9.7\n")) =
      ⟨[(bs "from", bs "A <a@example.com>"),
        (bs "date", bs "Sat, 05 Apr 2014 12:30:00 UTC"),
        (bs "subject", bs "[PATCH 1/1] Subject line")],
       bs "Body line\n\n\n---\n" ++ (D ++ bs "-- \nDulwich 0.9.7\n")⟩ := by
  rw [parseEmail, wcp_iterLines D hD, wcp_parseGo]
  simp only [List.flatten_cons, List.flatten_append, iterLines_flatten, List.append_assoc,
    List.append_nil, List.flatten_nil]
  rfl

/-- Full round trip of the patch-mail envelope, for newline-terminated
diff bytes containing no `-- ` terminator line. -/
theorem git_am_patch_split_wcp (D : Bytes) (hD : D = [] ∨ D.getLast? = some '\n')
    (hnb : ∀ l ∈ iterLines D, l ≠ bs "-- \n") :
    git_am_patch_split (write_commit_patch (bs "0123456789abcdef") wcpCommit
        (bs "Sat Apr 5 12:30:00 2014") (bs "Sat, 05 Apr 2014 12:30:00 UTC") D 1 1
        (bs "Dulwich 0.9.7")) =
      Except.ok (⟨bs "A <a@example.com>", bs "A <a@example.com>",
        bs "Subject line\n\nBody line\n\n\n"⟩, D, some (bs "Dulwich 0.9.7")) := by
  rw [wcp_split D]
  have hPE := wcp_parseEmail D hD
  have hf : getHeader (parseEmail (wcpHeader ++ (D ++ bs "-- \nDulwich 0.9.7\n"))) (bs "from") =
      some (bs "A <a@example.com>") := by rw [hPE]; rfl
  have hs : getHeader (parseEmail (wcpHeader ++ (D ++ bs "-- \nDulwich 0.9.7\n"))) (bs "subject") =
      some (bs "[PATCH 1/1] Subject line") := by rw [hPE]; rfl
  rw [git_am_patch_split_eq _ (bs "A <a@example.com>") (bs "[PATCH 1/1] Subject line")
    (bs "Subject line") hf (by rfl) hs (by rfl) (by rfl)]
  rw [hPE]
  have hpl : iterLines (bs "Body line\n\n\n---\n" ++ (D ++ bs "-- \nDulwich 0.9.7\n")) =
      bs "Body line\n" :: bs "\n" :: bs "\n" :: bs "---\n" ::
        (iterLines D ++ bs "-- \n" :: [bs "Dulwich 0.9.7\n"]) := by
    rw [iterLines_append (bs "Body line\n\n\n---\n") (D ++ bs "-- \nDulwich 0.9.7\n") (by rfl)]
    rcases hD with hD | hD
    · subst hD
      rfl
    · rw [iterLines_append D (bs "-- \nDulwich 0.9.7\n") hD]
      rfl
  rw [hpl]
  have hsb : ∀ rest, splitBody1 (bs "Body line\n" :: bs "\n" :: bs "\n" :: bs "---\n" :: rest)
      (bs "A <a@example.com>") ((bs "Subject line").filter (fun c => !(c == '\n')) ++ bs "\n")
      true = (bs "A <a@example.com>", bs "Subject line\n\nBody line\n\n\n", rest) :=
    fun rest => rfl
  rw [hsb]
  dsimp only
  rw [splitDiff_clean (iterLines D) [] [bs "Dulwich 0.9.7\n"] hnb]
  dsimp only
  rw [iterLines_flatten]
  rfl

/-- The first body loop from the start with no `---` line at all: every
line is accumulated behind the separating blank, nothing remains. -/
theorem splitBody1_true_noMarker (ls : List Bytes) (author msg : Bytes)
    (h : ∀ l ∈ ls, l ≠ bs "---\n")
    (hfirst : ∀ l ∈ ls.take 1, ¬((bs "From: ").isPrefixOf l = true)) :
    splitBody1 ls author msg true =
      (author, msg ++ (if ls = [] then [] else bs "\n" ++ ls.flatten), []) := by
  match ls with
  | [] =>
    rw [if_pos rfl, splitBody1]
    simp
  | l :: rest =>
    rw [if_neg (by simp)]
    rw [splitBody1, if_neg (h l (List.mem_cons_self l rest))]
    rw [if_pos rfl]
    rw [if_neg (hfirst l (by simp))]
    rw [splitBody1_noMarker rest author (msg ++ bs "\n" ++ l)
      (fun x hx => h x (List.mem_cons_of_mem l hx))]
    simp

/-- The first body loop from the start, stopping at a `---` line, with
clean preceding lines. -/
theorem splitBody1_true_clean (pre post : List Bytes) (author msg : Bytes)
    (h : ∀ l ∈ pre, l ≠ bs "---\n")
    (hfirst : ∀ l ∈ pre.take 1, ¬((bs "From: ").isPrefixOf l = true)) :
    splitBody1 (pre ++ bs "---\n" :: post) author msg true =
      (author, msg ++ (if pre = [] then [] else bs "\n" ++ pre.flatten), post) := by
  match pre with
  | [] =>
    rw [if_pos rfl, List.nil_append, splitBody1, if_pos rfl]
    simp
  | l :: rest =>
    rw [if_neg (by simp)]
    rw [List.cons_append, splitBody1, if_neg (h l (List.mem_cons_self l rest))]
    rw [if_pos rfl]
    rw [if_neg (hfirst l (by simp))]
    rw [splitBody1_clean rest author (msg ++ bs "\n" ++ l) post
      (fun x hx => h x (List.mem_cons_of_mem l hx))]
    simp

/-- Appending a newline-terminated string keeps the trailing newline. -/
theorem getLast_append_nl {y : Bytes} (x : Bytes) (hy : y.getLast? = some '\n') :
    (x ++ y).getLast? = some '\n' := by
  rw [List.getLast?_append, hy]
  rfl

/-- Every mangled (`-`/`+`) line in a formatted opcode ends in a newline. -/
theorem formatOpcode_pm_newline {a b : List Bytes} {c : Opcode} {l : Bytes}
    (hl : l ∈ formatOpcode a b c)
    (hpm : l.head? = some '-' ∨ l.head? = some '+') : l.getLast? = some '\n' := by
  rw [formatOpcode] at hl
  have hminus : ∀ x : Bytes, l = '-' :: fixNl x → l.getLast? = some '\n' := by
    intro x hx
    rw [hx, getLast_cons_of_ne_nil (fixNl_ne_nil x)]
    exact fixNl_getLast x
  have hplus : ∀ x : Bytes, l = '+' :: fixNl x → l.getLast? = some '\n' := by
    intro x hx
    rw [hx, getLast_cons_of_ne_nil (fixNl_ne_nil x)]
    exact fixNl_getLast x
  rcases htag : c.tag with _ | _ | _ | _ <;> rw [htag] at hl
  · rw [List.mem_map] at hl
    obtain ⟨x, _, hx⟩ := hl
    rw [← hx] at hpm
    rcases hpm with h | h <;> simp at h
  · rcases List.mem_append.mp hl with h1 | h1 <;> rw [List.mem_map] at h1
    · obtain ⟨x, _, hx⟩ := h1
      exact hminus x hx.symm
    · obtain ⟨x, _, hx⟩ := h1
      exact hplus x hx.symm
  · rw [List.mem_map] at hl
    obtain ⟨x, _, hx⟩ := hl
    exact hminus x hx.symm
  · rw [List.mem_map] at hl
    obtain ⟨x, _, hx⟩ := hl
    exact hplus x hx.symm

/-- Every `-`- or `+`-initial line in the output of unified_diff ends in
a newline (deleted/inserted content lines are newline-fixed; the file
headers are newline-terminated by construction). -/
theorem unified_diff_pm_newline (a b : List Bytes) (f t : Bytes) (n : Nat) :
    ∀ l ∈ unified_diff a b f t n,
      l.head? = some '-' ∨ l.head? = some '+' → l.getLast? = some '\n' := by
  intro l hl hpm
  rw [unified_diff] at hl
  rcases hg : get_grouped_opcodes a b n with _ | ⟨g, gs⟩ <;> rw [hg] at hl
  · simp at hl
  · rcases List.mem_cons.mp hl with h1 | h1
    · rw [h1]
      exact getLast_append_nl _ (show (bs "\n").getLast? = some '\n' from rfl)
    · rcases List.mem_cons.mp h1 with h2 | h2
      · rw [h2]
        exact getLast_append_nl _ (show (bs "\n").getLast? = some '\n' from rfl)
      · rw [List.mem_flatten] at h2
        obtain ⟨gl, hgl, hlgl⟩ := h2
        rw [List.mem_map] at hgl
        obtain ⟨g2, _, hg2⟩ := hgl
        rw [← hg2, formatGroup] at hlgl
        rcases List.mem_cons.mp hlgl with h3 | h3
        · rw [h3, hunkHeader]
          exact getLast_append_nl _ (show (bs " @@\n").getLast? = some '\n' from rfl)
        · rw [List.mem_flatten] at h3
          obtain ⟨ol, hol, hlol⟩ := h3
          rw [List.mem_map] at hol
          obtain ⟨c, _, hc⟩ := hol
          rw [← hc] at hlol
          exact formatOpcode_pm_newline hlol hpm

/-! The claims. -/

/-- C1 (amended): round-trip of the patch-mail envelope.  For a commit with
author `A <a@example.com>` and message `Subject line\n\nBody line\n`, and
for diff bytes `D` that are empty or newline-terminated and contain no
`-- \n` line, parsing the message produced by `write_commit_patch` (with
the diffstat collaborator unavailable) with `git_am_patch_split` yields a
commit whose author is `A <a@example.com>`, whose message starts with
`Subject line\n\nBody line\n`, and diff bytes equal to `D` byte-for-byte.
Without the restriction on `D` the diff is not recovered byte-for-byte
(see the counterexample). -/
theorem claim_c1_envelope_roundtrip (D : Bytes)
    (hD : D = [] ∨ D.getLast? = some '\n')
    (hnb : ∀ l ∈ iterLines D, l ≠ bs "-- \n") :
    ∃ c diff version,
      git_am_patch_split (write_commit_patch (bs "0123456789abcdef") wcpCommit
          (bs "Sat Apr 5 12:30:00 2014") (bs "Sat, 05 Apr 2014 12:30:00 UTC") D 1 1
          (bs "Dulwich 0.9.7")) = Except.ok (c, diff, version) ∧
        c.author = bs "A <a@example.com>" ∧
        (bs "Subject line\n\nBody line\n").isPrefixOf c.message = true ∧
        diff = D := by
  refine ⟨_, _, _, git_am_patch_split_wcp D hD hnb, rfl, ?_, rfl⟩
  decide

/-- C1, counterexample to the unrestricted claim: for `D = "x"` (no
trailing newline) the final diff line fuses with the `-- ` terminator, so
the parsed diff is `x-- \nDulwich 0.9.7\n`, not `x`. -/
theorem claim_c1_counterexample :
    git_am_patch_split (write_commit_patch (bs "0123456789abcdef") wcpCommit
        (bs "Sat Apr 5 12:30:00 2014") (bs "Sat, 05 Apr 2014 12:30:00 UTC") (bs "x") 1 1
        (bs "Dulwich 0.9.7")) =
      Except.ok (⟨bs "A <a@example.com>", bs "A <a@example.com>",
        bs "Subject line\n\nBody line\n\n\n"⟩, bs "x-- \nDulwich 0.9.7\n", none) ∧
    bs "x-- \nDulwich 0.9.7\n" ≠ bs "x" :=
  ⟨rfl, by decide⟩

/-- C1 witness: the round trip at the concrete diff `d1\nd2\n`. -/
theorem claim_c1_witness :
    ∃ c diff version,
      git_am_patch_split (write_commit_patch (bs "0123456789abcdef") wcpCommit
          (bs "Sat Apr 5 12:30:00 2014") (bs "Sat, 05 Apr 2014 12:30:00 UTC")
          (bs "d1\nd2\n") 1 1 (bs "Dulwich 0.9.7")) = Except.ok (c, diff, version) ∧
        c.author = bs "A <a@example.com>" ∧
        (bs "Subject line\n\nBody line\n").isPrefixOf c.message = true ∧
        diff = bs "d1\nd2\n" :=
  claim_c1_envelope_roundtrip (bs "d1\nd2\n") (Or.inr (by decide)) (by decide)

/-- C2: round-trip of the unified-diff body.  For line sequences `a` and
`b` (elements have no internal newline; the final byte may or may not be a
newline), applying the reference patch-apply to the output of
`unified_diff a b` reconstructs `b` exactly. -/
theorem claim_c2_diff_roundtrip (a b : List Bytes) (fromfile tofile : Bytes) (n : Nat)
    (hb : ∀ l ∈ b, properLine l) :
    applyUnified a (unified_diff a b fromfile tofile n) = some b :=
  applyUnified_unified_diff a b fromfile tofile n
    (fun l hl => by simp [properLine_no_marker (hb l hl)])

/-- C2 witness: the round trip at `a = [x\n]`, `b = [y]`, where the new
final line lacks its trailing newline. -/
theorem claim_c2_witness :
    applyUnified [bs "x\n"] (unified_diff [bs "x\n"] [bs "y"] (bs "f") (bs "t") 3) =
      some [bs "y"] :=
  claim_c2_diff_roundtrip [bs "x\n"] [bs "y"] (bs "f") (bs "t") 3
    (by
      intro l hl
      rw [List.mem_singleton] at hl
      subst hl
      intro i hi
      have hy : (bs "y").length = 1 := rfl
      rw [hy] at hi
      exact absurd hi (by omega))

/-- C3 (amended): in the output of unified_diff, deleted and inserted
content lines are newline-fixed (a line lacking a trailing newline gets a
newline plus the `\ No newline at end of file` marker appended), so every
`-`- or `+`-initial output line ends in a newline; equal context lines are
emitted raw and may lack a trailing newline (see the counterexample). -/
theorem claim_c3_mangled_newline (a b : List Bytes) (f t : Bytes) (n : Nat) :
    ∀ l ∈ unified_diff a b f t n,
      l.head? = some '-' ∨ l.head? = some '+' → l.getLast? = some '\n' :=
  unified_diff_pm_newline a b f t n

/-- C3, counterexample to the claim as stated: the equal context line
` ab` is emitted without a trailing newline and without any marker line
following it. -/
theorem claim_c3_counterexample :
    unified_diff [bs "ab"] [bs "ab", bs "c\n"] (bs "a") (bs "b") 3 =
      [bs "--- a\n", bs "+++ b\n", bs "@@ -1,1 +1,2 @@\n", bs " ab", bs "+c\n"] ∧
    (bs " ab").getLast? ≠ some '\n' :=
  ⟨rfl, by decide⟩

/-- C3 witness: the inserted line `+c\n` of the same diff ends in a
newline. -/
theorem claim_c3_witness : (bs "+c\n").getLast? = some '\n' :=
  claim_c3_mangled_newline [bs "ab"] [bs "ab", bs "c\n"] (bs "a") (bs "b") 3 (bs "+c\n")
    (by decide) (Or.inr (by decide))

/-- C4: a self-diff yields no output lines at all; in general the
`---`/`+++` header pair is emitted exactly once, at the front, and only
when at least one change group exists, the rest of the output being
exactly the formatted groups. -/
theorem claim_c4_self_diff_empty (a : List Bytes) (f t : Bytes) (n : Nat) :
    unified_diff a a f t n = [] ∧
    (∀ b, get_grouped_opcodes a b n = [] → unified_diff a b f t n = []) ∧
    (∀ b g gs, get_grouped_opcodes a b n = g :: gs →
      unified_diff a b f t n =
        (bs "--- " ++ f ++ bs "\n") :: (bs "+++ " ++ t ++ bs "\n") ::
          ((g :: gs).map (formatGroup a b)).flatten) := by
  refine ⟨unified_diff_self a f t n, ?_, ?_⟩
  · intro b hx
    rw [unified_diff, hx]
  · intro b g gs hx
    rw [unified_diff, hx]

/-- C4 witness: the self-diff of `[x\n]` is empty, and the diff against
`[y\n]` carries the header pair once in front of its single group. -/
theorem claim_c4_witness :
    unified_diff [bs "x\n"] [bs "x\n"] (bs "f") (bs "t") 3 = [] ∧
    unified_diff [bs "x\n"] [bs "y\n"] (bs "f") (bs "t") 3 =
      (bs "--- " ++ bs "f" ++ bs "\n") :: (bs "+++ " ++ bs "t" ++ bs "\n") ::
        (([Opcode.mk Tag.replace 0 1 0 1] :: []).map
          (formatGroup [bs "x\n"] [bs "y\n"])).flatten :=
  ⟨(claim_c4_self_diff_empty [bs "x\n"] (bs "f") (bs "t") 3).1,
   (claim_c4_self_diff_empty [bs "x\n"] (bs "f") (bs "t") 3).2.2 [bs "y\n"]
     [Opcode.mk Tag.replace 0 1 0 1] [] (by decide)⟩

/-- C5 (amended): a missing `From` header makes git_am_patch_split fail
with AttributeError; with `From` present and ASCII, a missing `Subject`
header also fails with AttributeError; a subject containing `[PATCH` with
no following `] ` fails with ValueError; the function never fails with
FormatError. -/
theorem claim_c5_header_errors (m : Bytes) :
    git_am_patch_split m ≠ Except.error PyErr.formatError ∧
    (getHeader (parseEmail m) (bs "from") = none →
      git_am_patch_split m = Except.error PyErr.attributeError) ∧
    (∀ v, getHeader (parseEmail m) (bs "from") = some v →
      v.all (fun c => decide (c.toNat < 128)) = true →
      getHeader (parseEmail m) (bs "subject") = none →
      git_am_patch_split m = Except.error PyErr.attributeError) ∧
    (∀ v sv, getHeader (parseEmail m) (bs "from") = some v →
      v.all (fun c => decide (c.toNat < 128)) = true →
      getHeader (parseEmail m) (bs "subject") = some sv →
      subjectOf sv = Except.error PyErr.valueError →
      git_am_patch_split m = Except.error PyErr.valueError) := by
  refine ⟨git_am_patch_split_no_format m, ?_, ?_, ?_⟩
  · intro h1
    rw [git_am_patch_split, h1]
    rfl
  · intro v h1 h2 h3
    rw [git_am_patch_split, h1]
    dsimp only [Bind.bind, Except.bind]
    rw [encodeAscii, if_pos h2]
    dsimp only [Bind.bind, Except.bind]
    rw [h3]
  · intro v sv h1 h2 h3 h4
    rw [git_am_patch_split, h1]
    dsimp only [Bind.bind, Except.bind]
    rw [encodeAscii, if_pos h2]
    dsimp only [Bind.bind, Except.bind]
    rw [h3]
    dsimp only [Bind.bind, Except.bind]
    rw [h4]

/-- C5, counterexample to the claim as stated: a message with no `From`
header fails with AttributeError, which is not FormatError. -/
theorem claim_c5_counterexample :
    git_am_patch_split (bs "Date: x\nSubject: hi\n\nbody\n") =
      Except.error PyErr.attributeError ∧
    (Except.error PyErr.attributeError :
        Except PyErr (CommitR × Bytes × Option Bytes)) ≠
      Except.error PyErr.formatError :=
  ⟨rfl, fun h => PyErr.noConfusion (Except.error.inj h)⟩

/-- C5 witness: the amended error behaviour at two concrete messages. -/
theorem claim_c5_witness :
    git_am_patch_split (bs "Date: x\nSubject: hi\n\nbody\n") =
      Except.error PyErr.attributeError ∧
    git_am_patch_split (bs "From: a\nSubject: [PATCH oops\n\nbody\n") =
      Except.error PyErr.valueError :=
  ⟨(claim_c5_header_errors (bs "Date: x\nSubject: hi\n\nbody\n")).2.1 rfl,
   (claim_c5_header_errors (bs "From: a\nSubject: [PATCH oops\n\nbody\n")).2.2.2
     (bs "a") (bs "[PATCH oops") rfl (by decide) rfl rfl⟩

/-- C6: when the body has no `---\n` line, or has one but no `-- \n` line
after it, git_am_patch_split does not raise: it returns the accumulated
data — body lines appended to the commit message behind a separating
blank, the remaining lines flattened as the (possibly empty) diff, and a
null version.  Stated for messages whose headers parse (the first body
line is assumed not to be a `From: ` override for a closed message form). -/
theorem claim_c6_missing_markers (m fromV subjV subj' : Bytes)
    (hf : getHeader (parseEmail m) (bs "from") = some fromV)
    (hfa : fromV.all (fun c => decide (c.toNat < 128)) = true)
    (hs : getHeader (parseEmail m) (bs "subject") = some subjV)
    (hsub : subjectOf subjV = Except.ok subj')
    (hsa : subj'.all (fun c => decide (c.toNat < 128)) = true) :
    ((∀ l ∈ iterLines (parseEmail m).payload, l ≠ bs "---\n") →
     (∀ l ∈ (iterLines (parseEmail m).payload).take 1,
        ¬((bs "From: ").isPrefixOf l = true)) →
     git_am_patch_split m = Except.ok
       (⟨fromV, fromV,
         (subj'.filter (fun c => !(c == '\n')) ++ bs "\n") ++
           (if iterLines (parseEmail m).payload = [] then []
            else bs "\n" ++ (parseEmail m).payload)⟩,
        [], none)) ∧
    (∀ pre post, iterLines (parseEmail m).payload = pre ++ bs "---\n" :: post →
     (∀ l ∈ pre, l ≠ bs "---\n") →
     (∀ l ∈ pre.take 1, ¬((bs "From: ").isPrefixOf l = true)) →
     (∀ l ∈ post, l ≠ bs "-- \n") →
     git_am_patch_split m = Except.ok
       (⟨fromV, fromV,
         (subj'.filter (fun c => !(c == '\n')) ++ bs "\n") ++
           (if pre = [] then [] else bs "\n" ++ pre.flatten)⟩,
        post.flatten, none)) := by
  constructor
  · intro hbody hfirst
    rw [git_am_patch_split_eq m fromV subjV subj' hf hfa hs hsub hsa]
    rw [splitBody1_true_noMarker _ _ _ hbody hfirst]
    dsimp only
    rw [splitDiff_noMarker [] [] (by simp)]
    dsimp only
    rw [List.flatten_nil, List.append_nil]
    rcases hpay : iterLines (parseEmail m).payload with _ | ⟨l0, rest⟩
    · rw [if_pos rfl, if_pos rfl]
    · rw [if_neg (by simp), if_neg (by simp)]
      have hfl : (parseEmail m).payload = (iterLines (parseEmail m).payload).flatten :=
        (iterLines_flatten _).symm
    
      rw [hfl, hpay]
  · intro pre post hsplit hpre hfirst hpost
    rw [git_am_patch_split_eq m fromV subjV subj' hf hfa hs hsub hsa]
    rw [hsplit]
    rw [splitBody1_true_clean pre post _ _ hpre hfirst]
    dsimp only
    rw [splitDiff_noMarker post [] hpost]
    dsimp only
    rw [List.nil_append]

/-- C7: the mode-change lines of write_object_diff.  Both modes present
and different: `old mode` then `new mode`; new present, old absent: only
`new mode`; new absent, old present: only `deleted mode`; equal modes: no
mode line.  The closed conjunct is the spec's mode-change example: content
unchanged, mode 100644 to 100755, identical short ids, no diff body. -/
theorem claim_c7_mode_lines :
    (∀ o n, o ≠ n →
      modeChangeLines (some o) (some n) =
        bs "old mode " ++ octalBytes o ++ bs "\n" ++ bs "new mode " ++ octalBytes n ++
          bs "\n") ∧
    (∀ n, modeChangeLines none (some n) = bs "new mode " ++ octalBytes n ++ bs "\n") ∧
    (∀ o, modeChangeLines (some o) none = bs "deleted mode " ++ octalBytes o ++ bs "\n") ∧
    (∀ mo, modeChangeLines mo mo = []) ∧
    write_object_diff (fun h => if h = bs "0123456789" then some (bs "hello\n") else none)
        (some (bs "a.txt"), some 33188, some (bs "0123456789"))
        (some (bs "a.txt"), some 33261, some (bs "0123456789")) false =
      Except.ok
        (bs "diff --git a/a.txt b/a.txt\nold mode 100644\nnew mode 100755\nindex 0123456..0123456 100755\n") := by
  refine ⟨?_, ?_, ?_, ?_, rfl⟩
  · intro o n h
    unfold modeChangeLines
    rw [if_neg (by simp [h])]
  · intro n
    unfold modeChangeLines
    rw [if_neg (by simp)]
  · intro o
    unfold modeChangeLines
    rw [if_neg (by simp)]
  · intro mo
    unfold modeChangeLines
    rw [if_pos rfl]

/-- C7 witness: the two-sided mode change at 0o100644 to 0o100755. -/
theorem claim_c7_witness :
    modeChangeLines (some 33188) (some 33261) =
      bs "old mode " ++ octalBytes 33188 ++ bs "\n" ++ bs "new mode " ++ octalBytes 33261 ++
        bs "\n" :=
  claim_c7_mode_lines.1 33188 33261 (by decide)

/-- C8: the index line is `index <short-old>..<short-new>`, followed by a
space and the octal new mode exactly when the new mode is present; a short
id is the first 7 bytes of the id, or seven zeros when the id is absent.
The closed conjunct is the deletion example: new side entirely absent
renders `/dev/null`, a `deleted mode` line and new short id `0000000`
with no mode suffix. -/
theorem claim_c8_index_line :
    (∀ oid nid nm, indexLine oid nid (some nm) =
      bs "index " ++ shortid oid ++ bs ".." ++ shortid nid ++ (bs " " ++ octalBytes nm) ++
        bs "\n") ∧
    (∀ oid nid, indexLine oid nid none =
      bs "index " ++ shortid oid ++ bs ".." ++ shortid nid ++ bs "\n") ∧
    (∀ h : Bytes, shortid (some h) = h.take 7) ∧
    shortid none = bs "0000000" ∧
    write_object_diff (fun h => if h = bs "0123456789" then some (bs "hello\n") else none)
        (some (bs "f"), some 33188, some (bs "0123456789")) (none, none, none) false =
      Except.ok
        (bs "diff --git a/f /dev/null\ndeleted mode 100644\nindex 0123456..0000000\n--- a/f\n+++ /dev/null\n@@ -1,1 +1,0 @@\n-hello\n") := by
  refine ⟨fun oid nid nm => rfl, ?_, fun h => rfl, rfl, rfl⟩
  intro oid nid
  rw [indexLine]
  simp

/-- C9: subject processing.  With no `[PATCH` occurrence the whole subject
is kept; with the first `[PATCH` occurrence at `k` and the first `] ` at
or after `k` at position `c`, the effective subject is the substring after
that `] `; the example subject `[PATCH 3/5] Fix bug` yields `Fix bug`; and
with an empty payload the commit message is exactly the effective subject,
newlines removed, plus one trailing newline. -/
theorem claim_c9_subject_processing :
    (∀ s : Bytes, (∀ i, i ≤ s.length → (bs "[PATCH").isPrefixOf (s.drop i) = false) →
      subjectOf s = Except.ok s) ∧
    (∀ (s : Bytes) (k c : Nat),
      k ≤ s.length → (bs "[PATCH").isPrefixOf (s.drop k) = true →
      (∀ i, i < k → (bs "[PATCH").isPrefixOf (s.drop i) = false) →
      k ≤ c → c ≤ s.length → (bs "] ").isPrefixOf (s.drop c) = true →
      (∀ i, i < c → k ≤ i → (bs "] ").isPrefixOf (s.drop i) = false) →
      subjectOf s = Except.ok (s.drop (c + 2))) ∧
    subjectOf (bs "[PATCH 3/5] Fix bug") = Except.ok (bs "Fix bug") ∧
    (∀ m fromV subjV subj' : Bytes,
      getHeader (parseEmail m) (bs "from") = some fromV →
      fromV.all (fun c => decide (c.toNat < 128)) = true →
      getHeader (parseEmail m) (bs "subject") = some subjV →
      subjectOf subjV = Except.ok subj' →
      subj'.all (fun c => decide (c.toNat < 128)) = true →
      (parseEmail m).payload = [] →
      git_am_patch_split m = Except.ok
        (⟨fromV, fromV, subj'.filter (fun c => !(c == '\n')) ++ bs "\n"⟩, [], none)) := by
  refine ⟨?_, ?_, rfl, ?_⟩
  · intro s h
    rw [subjectOf]
    rw [show findSub s (bs "[PATCH") = none from
      findSubFrom_eq_none (fun i _ hil => h i hil)]
  · intro s k c hk hkp hkl hkc hcle hcp hcl
    rw [subjectOf]
    rw [show findSub s (bs "[PATCH") = some k from
      findSubFrom_eq_some (Nat.zero_le k) hk hkp (fun i _ hik => hkl i hik)]
    have hstep : (match findSubFrom s (bs "] ") k with
        | none => Except.error PyErr.valueError
        | some close => Except.ok (List.drop (close + 2) s)) =
        (Except.ok (List.drop (c + 2) s) : Except PyErr Bytes) := by
      rw [findSubFrom_eq_some hkc hcle hcp (fun i hge hic => hcl i hic hge)]
    exact hstep
  · intro m fromV subjV subj' h1 h2 h3 h4 h5 hpay
    rw [git_am_patch_split_eq m fromV subjV subj' h1 h2 h3 h4 h5, hpay]
    rfl

/-- C9 witness: the three subject behaviours at concrete subjects, and the
message construction at a concrete header-only message. -/
theorem claim_c9_witness :
    subjectOf (bs "hello") = Except.ok (bs "hello") ∧
    subjectOf (bs "[PATCH 3/5] Fix bug") =
      Except.ok ((bs "[PATCH 3/5] Fix bug").drop 12) ∧
    git_am_patch_split (bs "From: a\nSubject: s\n\n") = Except.ok
      (⟨bs "a", bs "a", (bs "s").filter (fun c => !(c == '\n')) ++ bs "\n"⟩, [], none) :=
  ⟨claim_c9_subject_processing.1 (bs "hello") (by decide),
   claim_c9_subject_processing.2.1 (bs "[PATCH 3/5] Fix bug") 0 10 (by decide) (by decide)
     (by decide) (by decide) (by decide) (by decide) (by decide),
   claim_c9_subject_processing.2.2.2 (bs "From: a\nSubject: s\n\n") (bs "a") (bs "s")
     (bs "s") rfl (by decide) rfl rfl (by decide) rfl⟩

/-- C10: get_summary returns the first line of the commit message with
every space replaced by a hyphen whenever the message has at least one
line, and fails with IndexError on an empty message. -/
theorem claim_c10_get_summary :
    (∀ c : CommitR, c.message ≠ [] →
      ∃ l rest, splitlinesPy c.message = l :: rest ∧
        get_summary c = Except.ok (l.map (fun ch => if ch = ' ' then '-' else ch))) ∧
    (∀ c : CommitR, c.message = [] → get_summary c = Except.error PyErr.indexError) ∧
    get_summary ⟨[], [], bs "Fix the bug\nmore\n"⟩ = Except.ok (bs "Fix-the-bug") := by
  refine ⟨?_, ?_, rfl⟩
  · intro c h
    rcases hsp : splitlinesPy c.message with _ | ⟨l, rest⟩
    · exact absurd hsp (splitlinesPy_ne_nil c.message h)
    · exact ⟨l, rest, rfl, by rw [get_summary, hsp]⟩
  · intro c h
    rw [get_summary, h]
    rfl

/-- C10 witness: a two-line message with spaces in the first line, and the
empty-message failure. -/
theorem claim_c10_witness :
    (∃ l rest, splitlinesPy (CommitR.mk [] [] (bs "hello world\nrest")).message = l :: rest ∧
      get_summary ⟨[], [], bs "hello world\nrest"⟩ =
        Except.ok (l.map (fun ch => if ch = ' ' then '-' else ch))) ∧
    get_summary ⟨[], [], []⟩ = Except.error PyErr.indexError :=
  ⟨claim_c10_get_summary.1 ⟨[], [], bs "hello world\nrest"⟩ (by decide),
   claim_c10_get_summary.2.1 ⟨[], [], []⟩ rfl⟩

/-- C6 witness: a body with no `---` line at all, and a body with a `---`
line but no `-- ` line after it. -/
theorem claim_c6_witness :
    git_am_patch_split (bs "From: a\nSubject: s\n\nbody line\n") =
      Except.ok (⟨bs "a", bs "a", bs "s\n\nbody line\n"⟩, [], none) ∧
    git_am_patch_split (bs "From: a\nSubject: s\n\nb1\n---\nd1\n") =
      Except.ok (⟨bs "a", bs "a", bs "s\n\nb1\n"⟩, bs "d1\n", none) := by
  constructor
  · have h := (claim_c6_missing_markers (bs "From: a\nSubject: s\n\nbody line\n")
      (bs "a") (bs "s") (bs "s") rfl (by decide) rfl rfl (by decide)).1
      (by decide) (by decide)
    rw [h]
    rfl
  · have h := (claim_c6_missing_markers (bs "From: a\nSubject: s\n\nb1\n---\nd1\n")
      (bs "a") (bs "s") (bs "s") rfl (by decide) rfl rfl (by decide)).2
      [bs "b1\n"] [bs "d1\n"] rfl (by decide) (by decide) (by decide)
    rw [h]
    rfl
